import Mathlib

/-!
Shallow embedding of the `workshop_2` blockchain node (files
`blockchain.py`, `node.py`, `api.py`) and proofs about its behaviour.

Modelling conventions:
* Python `float` amounts and timestamps are modelled by `ℤ`; the arithmetic
  the code performs (comparison, addition, subtraction) is exact on the
  values the claims exercise.
* SHA-256 content hashes are modelled by an abstract `HashModel`: a pair of
  functions standing for `Transaction.calculate_hash` (SHA-256 of the
  canonical serialization of the five transaction fields) and
  `Block.calculate_hash` (SHA-256 of the serialization of index,
  transactions, timestamp, previous_hash, nonce — difficulty and the stored
  hash are excluded, as in the source).  All theorems are proved for every
  hash model; concrete evaluations use an injective string encoding.
* Python `dict` is modelled by an insertion-ordered association list.
* Wall-clock timestamps (`time.time()`) and fresh uuid signatures are passed
  in as explicit parameters wherever the source draws them from the
  environment; the timestamp stored with rejected transactions carries no
  information used anywhere and is dropped from the rejected-pool entries.
* The unbounded `while` loop of `Block.mine_block` is modelled with explicit
  fuel, returning `none` when the fuel is exhausted.
-/

namespace Workshop2

/-- A transaction as in `blockchain.py`: sender, recipient, amount,
timestamp, opaque signature.  `sender = "0"` marks a system (mining reward)
transaction. -/
structure Tx where
  sender : String
  recipient : String
  amount : ℤ
  timestamp : ℤ
  signature : String
deriving DecidableEq, Repr

/-- The hashed payload of a block: exactly the five fields serialized by
`Block.calculate_hash` (difficulty and the stored hash are excluded). -/
structure BlockContent where
  index : ℕ
  transactions : List Tx
  timestamp : ℤ
  previous_hash : String
  nonce : ℕ
deriving DecidableEq, Repr

/-- Abstract model of the SHA-256 hashing used by the source: `txHash`
stands for `Transaction.calculate_hash`, `blockHash` for
`Block.calculate_hash`. -/
structure HashModel where
  txHash : Tx → String
  blockHash : BlockContent → String

/-- A block as in `blockchain.py`. -/
structure Block where
  index : ℕ
  transactions : List Tx
  timestamp : ℤ
  previous_hash : String
  nonce : ℕ
  difficulty : ℕ
  hash : String
deriving DecidableEq, Repr

/-- `Block.calculate_hash`: hash of the five-field payload. -/
def calcBlockHash (hm : HashModel) (b : Block) : String :=
  hm.blockHash ⟨b.index, b.transactions, b.timestamp, b.previous_hash, b.nonce⟩

/-- The block constructor `Block.__init__`: stores the fields and computes
the initial hash. -/
def mkBlock (hm : HashModel) (index : ℕ) (transactions : List Tx) (timestamp : ℤ)
    (previous_hash : String) (nonce : ℕ) (difficulty : ℕ) : Block :=
  let b : Block := ⟨index, transactions, timestamp, previous_hash, nonce, difficulty, ""⟩
  { b with hash := calcBlockHash hm b }

/-- The proof-of-work target test `self.hash[:difficulty] == '0'*difficulty`:
the hash starts with `difficulty` zero characters. -/
def powOk (b : Block) : Bool :=
  List.isPrefixOf (List.replicate b.difficulty '0') b.hash.data

/-- `Block.is_hash_valid`: difficulty prefix holds and the stored hash
matches the recomputed one. -/
def isHashValid (hm : HashModel) (b : Block) : Bool :=
  powOk b && (b.hash == calcBlockHash hm b)

/-- `Block.mine_block`, fuel-indexed: the source loops
`while hash[:d] != '0'*d: nonce += 1; hash = calculate_hash()`.
Returns `none` when `fuel` steps do not reach the target. -/
def mineBlock (hm : HashModel) : ℕ → Block → Option Block
  | 0, b => if powOk b then some b else none
  | fuel + 1, b =>
      if powOk b then some b
      else
        let b' := { b with nonce := b.nonce + 1 }
        mineBlock hm fuel { b' with hash := calcBlockHash hm b' }

/-- Insertion-ordered association map standing for a Python `dict`. -/
abbrev AMap (α : Type) := List (String × α)

/-- Lookup (`d[k]` / `k in d`). -/
def aget? {α : Type} (m : AMap α) (k : String) : Option α :=
  match m with
  | [] => none
  | (k', v) :: rest => if k' = k then some v else aget? rest k

/-- Update-or-insert (`d[k] = v`), preserving insertion order. -/
def aset {α : Type} (m : AMap α) (k : String) (v : α) : AMap α :=
  match m with
  | [] => [(k, v)]
  | (k', v') :: rest => if k' = k then (k', v) :: rest else (k', v') :: aset rest k v

/-- Balance table (`user_balances`). -/
abbrev Balances := AMap ℤ

/-- A rejected-pool entry: the transaction and the reason string (the
wall-clock timestamp stored alongside is not modelled). -/
abbrev RejEntry := Tx × String

/-- The `Blockchain` aggregate state. -/
structure BC where
  chain : List Block
  pending_transactions : List Tx
  rejected_transactions : List RejEntry
  difficulty : ℕ
  user_balances : Balances
  mining_reward : ℤ
deriving DecidableEq, Repr

/-- `Blockchain.__init__` followed by `create_genesis_block`: the genesis
block has index 0, no transactions, previous hash `"0"`; its hash is the
computed content hash.  `genesisTs` stands for `time.time()`. -/
def freshBC (hm : HashModel) (difficulty : ℕ) (genesisTs : ℤ) : BC :=
  { chain := [mkBlock hm 0 [] genesisTs "0" 0 4]
    pending_transactions := []
    rejected_transactions := []
    difficulty := difficulty
    user_balances := []
    mining_reward := 1 }

/-- `Blockchain.get_latest_block` (`self.chain[-1]`); `none` models the
IndexError on an empty chain, which no reachable state produces. -/
def latestBlock? (s : BC) : Option Block := s.chain.getLast?

/-- `Blockchain._reject_transaction`: append the transaction and reason to
the rejected pool. -/
def rejectTx (s : BC) (t : Tx) (reason : String) : BC :=
  { s with rejected_transactions := s.rejected_transactions ++ [(t, reason)] }

/-- `Blockchain._is_duplicate_transaction`: same content hash as a pending
transaction, same content hash as a chain transaction, or same
(sender, recipient, amount) triple as a pending transaction. -/
def isDuplicate (hm : HashModel) (s : BC) (t : Tx) : Bool :=
  let h := hm.txHash t
  s.pending_transactions.any (fun tx => hm.txHash tx == h)
  || s.chain.any (fun b => b.transactions.any (fun tx => hm.txHash tx == h))
  || s.pending_transactions.any (fun tx =>
        tx.sender == t.sender && tx.recipient == t.recipient && decide (tx.amount = t.amount))

/-- Python float `repr` for the values interpolated into the
insufficient-funds message; integral floats print with a trailing `.0`
(`f"{100.0}"` is `"100.0"`). -/
def floatRepr (q : ℤ) : String :=
  toString q ++ ".0"

/-- The two lazy account initializations at the top of
`_is_transaction_valid` (and their ghost mirror): if the sender is unknown
it is entered with `vs`, then if the recipient is unknown it is entered
with `vr`. -/
def init2 {α : Type} (m : AMap α) (t : Tx) (vs vr : α) : AMap α :=
  let m1 := if (aget? m t.sender).isNone then aset m t.sender vs else m
  if (aget? m1 t.recipient).isNone then aset m1 t.recipient vr else m1

/-- The real-time debit of `_is_transaction_valid`: debit the sender, then
credit the recipient reading the table that already holds the debit (so a
self-transfer nets to zero), exactly as the two in-place updates of the
source. -/
def debitCredit (ub2 : Balances) (t : Tx) : Balances :=
  let ub3 := aset ub2 t.sender ((aget? ub2 t.sender).getD 0 - t.amount)
  aset ub3 t.recipient ((aget? ub3 t.recipient).getD 0 + t.amount)

/-- `Blockchain._is_transaction_valid`, including its side effects: system
transactions are valid with no balance change; otherwise an unknown sender
is initialized with 100, an unknown recipient with 0 (`init2`); an
overdraft is recorded in the rejected pool with a detailed reason;
otherwise the sender is debited and the recipient credited in place
(`debitCredit`). -/
def isTransactionValid (s : BC) (t : Tx) : Bool × BC :=
  if t.sender = "0" then (true, s)
  else if (aget? (init2 s.user_balances t 100 0) t.sender).getD 0 < t.amount then
    (false, rejectTx { s with user_balances := init2 s.user_balances t 100 0 } t
      ("Insufficient funds: "
        ++ floatRepr ((aget? (init2 s.user_balances t 100 0) t.sender).getD 0)
        ++ " < " ++ floatRepr t.amount))
  else
    (true, { s with user_balances := debitCredit (init2 s.user_balances t 100 0) t })

/-- `Blockchain.add_transaction`: duplicate check, validity check with
real-time debit, then append to the pending pool.  Returns the admission
verdict and the updated state. -/
def addTransaction (hm : HashModel) (s : BC) (t : Tx) : Bool × BC :=
  if isDuplicate hm s t then (false, rejectTx s t "Duplicate transaction")
  else
    let r := isTransactionValid s t
    if r.1 then
      (true, { r.2 with pending_transactions := r.2.pending_transactions ++ [t] })
    else
      (false, rejectTx r.2 t "Insufficient funds")

/-- `Blockchain.get_balance`: 0 for an address absent from the balance
table, the stored value otherwise. -/
def getBalance (s : BC) (a : String) : ℤ :=
  match aget? s.user_balances a with
  | none => 0
  | some v => v

/-- `get_balance` as a state transformer: the source only reads the balance
table (`in` test plus lookup), so the resulting state is returned alongside
the value to express that the operation does not create entries. -/
def getBalanceOp (s : BC) (a : String) : ℤ × BC :=
  match aget? s.user_balances a with
  | none => (0, s)
  | some v => (v, s)

/-- The loop body of `Blockchain._update_balances`: credit a system
(mining-reward) transaction to its recipient, initializing an unknown
recipient with the reward amount; skip every non-system transaction. -/
def rewardStep (st : BC) (t : Tx) : BC :=
  if t.sender = "0" then
    match aget? st.user_balances t.recipient with
    | some v => { st with user_balances := aset st.user_balances t.recipient (v + t.amount) }
    | none => { st with user_balances := aset st.user_balances t.recipient t.amount }
  else st

/-- `Blockchain._update_balances`: walk the block's transactions applying
`rewardStep` — only mining rewards change any balance. -/
def updateBalances (s : BC) (b : Block) : BC :=
  b.transactions.foldl rewardStep s

/-- `Blockchain.mine_pending_transactions`: append the reward transaction
(`"0" → miner`, amount `mining_reward`; `rts`/`rsig` stand for the fresh
timestamp and uuid), build a block from all pending transactions at the
chain tip (`bts` is the block timestamp), mine it, append it, credit the
reward, clear pending.  `none` models fuel exhaustion (or an empty chain,
unreachable). -/
def minePending (hm : HashModel) (fuel : ℕ) (minerAddress : String)
    (rts : ℤ) (rsig : String) (bts : ℤ) (s : BC) : Option (Block × BC) :=
  match latestBlock? s with
  | none => none
  | some tip =>
    let reward : Tx := ⟨"0", minerAddress, s.mining_reward, rts, rsig⟩
    let pend := s.pending_transactions ++ [reward]
    let b0 := mkBlock hm s.chain.length pend bts tip.hash 0 s.difficulty
    match mineBlock hm fuel b0 with
    | none => none
    | some b =>
      let s1 := { s with chain := s.chain ++ [b] }
      let s2 := updateBalances s1 b
      some (b, { s2 with pending_transactions := [] })

/-- One step of the simulated-balance walk inside `is_chain_valid`: lazily
credit 100 to a new sender and 0 to a new recipient, apply a system
transaction as a pure credit, and fail (`none`) when a non-system sender
lacks the funds. -/
def simTx (bal : Balances) (t : Tx) : Option Balances :=
  let b1 := if t.sender ≠ "0" ∧ (aget? bal t.sender).isNone
    then aset bal t.sender 100 else bal
  let b2 := if (aget? b1 t.recipient).isNone then aset b1 t.recipient 0 else b1
  if t.sender = "0" then
    some (aset b2 t.recipient ((aget? b2 t.recipient).getD 0 + t.amount))
  else if (aget? b2 t.sender).getD 0 < t.amount then none
  else
    let b3 := aset b2 t.sender ((aget? b2 t.sender).getD 0 - t.amount)
    some (aset b3 t.recipient ((aget? b3 t.recipient).getD 0 + t.amount))

/-- The simulated-balance walk over a list of transactions. -/
def simTxs (bal : Balances) : List Tx → Option Balances
  | [] => some bal
  | t :: rest =>
    match simTx bal t with
    | none => none
    | some bal' => simTxs bal' rest

/-- The loop body of `is_chain_valid` from index 1 on, keeping the running
simulated balances: each block must store its recomputed hash, link to the
previous block's hash, satisfy proof-of-work, and keep every simulated
balance sufficient.  Returns the final simulated balances on success. -/
def checkFrom? (hm : HashModel) (bal : Balances) (prev : Block) :
    List Block → Option Balances
  | [] => some bal
  | b :: rest =>
    if b.hash = calcBlockHash hm b ∧ b.previous_hash = prev.hash ∧ isHashValid hm b then
      match simTxs bal b.transactions with
      | none => none
      | some bal' => checkFrom? hm bal' b rest
    else none

/-- `Blockchain.is_chain_valid` on an explicit chain (the method reads only
`self.chain`; `replace_chain` runs it on a temporary ledger seeded with the
candidate chain): empty and single-block chains are valid; otherwise every
later block passes the hash, linkage, proof-of-work, and simulated-balance
checks. -/
def isChainValidL (hm : HashModel) (chain : List Block) : Bool :=
  match chain with
  | [] => true
  | g :: rest => (checkFrom? hm [] g rest).isSome

/-- `Blockchain.is_chain_valid` on a ledger state. -/
def isChainValid (hm : HashModel) (s : BC) : Bool :=
  isChainValidL hm s.chain

/-- The (sender, recipient, amount) triple used by the pending-pool
pruning. -/
def txTriple (t : Tx) : String × String × ℤ :=
  (t.sender, t.recipient, t.amount)

/-- `Blockchain.replace_chain`: reject a candidate that is not strictly
longer or fails `is_chain_valid`; on accept swap the chain, rebuild
`user_balances` from scratch with `_update_balances` over every block, and
keep only the pending transactions whose content hash and
(sender, recipient, amount) triple are both absent from the new chain. -/
def replaceChain (hm : HashModel) (s : BC) (blocks : List Block) : Bool × BC :=
  if blocks.length ≤ s.chain.length then (false, s)
  else if ¬ isChainValidL hm blocks then (false, s)
  else
    let s1 := { s with chain := blocks, user_balances := [] }
    let s2 := blocks.foldl updateBalances s1
    let chainTxs := (blocks.map Block.transactions).flatten
    let pending' := s.pending_transactions.filter (fun t =>
      chainTxs.all (fun c => hm.txHash c ≠ hm.txHash t)
      && chainTxs.all (fun c => txTriple c ≠ txTriple t))
    (true, { s2 with pending_transactions := pending' })

/-! ### The node layer (`node.py`) -/

/-- The node state relevant to transaction/block handling: the owned
ledger, whether this node is a miner, whether the background mining thread
has been started (`self.mining_thread is not None`), and the reward
address. -/
structure Node where
  blockchain : BC
  minerMode : Bool
  miningThreadStarted : Bool
  miningAddress : String
deriving DecidableEq, Repr

/-- The three observable outcomes of `Node.handle_new_block`: append the
block (returning True), fall back to `self.consensus()` (returning True),
or reject it (returning False).  The network activity of consensus itself
is outside the model; the action records that it was invoked. -/
inductive BlockAction
  | appended
  | consensusRun
  | rejected
deriving DecidableEq, Repr

/-- `Node._remove_transactions_in_block`: drop every pending transaction
whose content hash appears in the block, then every one whose
(sender, recipient, amount) triple appears in the block. -/
def removeTransactionsInBlock (hm : HashModel) (s : BC) (b : Block) : BC :=
  let hashes := b.transactions.map hm.txHash
  let triples := b.transactions.map txTriple
  let p1 := s.pending_transactions.filter (fun t => ¬ hm.txHash t ∈ hashes)
  { s with pending_transactions := p1.filter (fun t => ¬ txTriple t ∈ triples) }

/-- `Node.handle_new_block`: if the block extends the tip (next index and
matching previous hash) and `is_hash_valid`, append it, credit its mining
rewards, and prune pending; otherwise, if its index exceeds the tip's
index, run consensus; otherwise reject.  A block that extends the tip but
fails `is_hash_valid` is rejected (the `elif` is not evaluated). -/
def handleNewBlock (hm : HashModel) (n : Node) (b : Block) : BlockAction × Node :=
  match latestBlock? n.blockchain with
  | none => (BlockAction.rejected, n)
  | some latest =>
    if b.index = latest.index + 1 ∧ b.previous_hash = latest.hash then
      if isHashValid hm b then
        let s1 := { n.blockchain with chain := n.blockchain.chain ++ [b] }
        let s2 := updateBalances s1 b
        let s3 := removeTransactionsInBlock hm s2 b
        (BlockAction.appended, { n with blockchain := s3 })
      else (BlockAction.rejected, n)
    else if latest.index < b.index then (BlockAction.consensusRun, n)
    else (BlockAction.rejected, n)

/-- The non-system pending transactions (`sender != "0"`). -/
def nonSystemPending (s : BC) : List Tx :=
  s.pending_transactions.filter (fun t => t.sender ≠ "0")

/-- `Node.handle_new_transaction`: pre-check for duplicates, admit through
`add_transaction`, and — only when the transaction was admitted, the node
is a miner, and the background mining thread has not been started — mine
synchronously when exactly 3 non-system transactions are pending.  The
result is the admission verdict, the block that was mined and broadcast (if
any), and the new node state; `none` models mining-fuel exhaustion. -/
def handleNewTransaction (hm : HashModel) (fuel : ℕ) (rts : ℤ) (rsig : String) (bts : ℤ)
    (n : Node) (t : Tx) : Option (Bool × Option Block × Node) :=
  if isDuplicate hm n.blockchain t then some (false, none, n)
  else if (addTransaction hm n.blockchain t).1 && n.minerMode && !n.miningThreadStarted then
    if (nonSystemPending (addTransaction hm n.blockchain t).2).length = 3 then
      match minePending hm fuel n.miningAddress rts rsig bts
          (addTransaction hm n.blockchain t).2 with
      | none => none
      | some (b, s') => some (true, some b, { n with blockchain := s' })
    else some ((addTransaction hm n.blockchain t).1, none,
               { n with blockchain := (addTransaction hm n.blockchain t).2 })
  else some ((addTransaction hm n.blockchain t).1, none,
             { n with blockchain := (addTransaction hm n.blockchain t).2 })

/-! ### A concrete hash model for evaluated runs

The theorems below hold for every `HashModel`; closed counterexamples and
witnesses instantiate it with an injective string encoding of the hashed
payloads, and use difficulty 0 so that proof-of-work is immediate. -/

/-- Concrete stand-in for `Transaction.calculate_hash`: an injective
encoding of the five hashed fields. -/
def encTx (t : Tx) : String :=
  t.sender ++ "," ++ t.recipient ++ "," ++ toString t.amount ++ ","
    ++ toString t.timestamp ++ "," ++ t.signature

/-- Concrete stand-in for `Block.calculate_hash`: an injective encoding of
the five hashed fields. -/
def encBlock (c : BlockContent) : String :=
  toString c.index ++ ";" ++ String.join (c.transactions.map encTx) ++ ";"
    ++ toString c.timestamp ++ ";" ++ c.previous_hash ++ ";" ++ toString c.nonce

/-- The concrete hash model used by evaluated runs. -/
def testHM : HashModel := ⟨encTx, encBlock⟩

/-! ### Operation sequences and the balance-accounting ghost state -/

/-- A public ledger operation: an external submission through
`add_transaction`, or `mine_pending_transactions` (with the environment
values it draws: reward timestamp/signature and block timestamp). -/
inductive Op
  | submit (t : Tx)
  | mine (addr : String) (rts : ℤ) (rsig : String) (bts : ℤ)

/-- Run one operation on the ledger. -/
def runOp (hm : HashModel) (fuel : ℕ) (s : BC) : Op → Option BC
  | .submit t => some (addTransaction hm s t).2
  | .mine addr rts rsig bts => (minePending hm fuel addr rts rsig bts s).map Prod.snd

/-- Run a sequence of operations on the ledger. -/
def runOps (hm : HashModel) (fuel : ℕ) : BC → List Op → Option BC
  | s, [] => some s
  | s, op :: rest =>
    match runOp hm fuel s op with
    | none => none
    | some s' => runOps hm fuel s' rest

/-- Ghost record of how each known account entered the balance table:
`true` when it was created as a sender (credited 100), `false` when it was
created as a recipient or reward target (credited 0 / the reward). -/
abbrev GMap := AMap Bool

/-- Ghost mirror of the two lazy initializations in
`_is_transaction_valid`: `true` records creation as a sender. -/
def ghostInit (g : GMap) (t : Tx) : GMap :=
  init2 g t true false

/-- Ghost mirror of the reward credit in `_update_balances`. -/
def ghostMine (g : GMap) (addr : String) : GMap :=
  if (aget? g addr).isNone then aset g addr false else g

/-- Ghost step for one operation, driven by the pre-state. -/
def gstep (hm : HashModel) (s : BC) (g : GMap) : Op → GMap
  | .submit t => if isDuplicate hm s t ∨ t.sender = "0" then g else ghostInit g t
  | .mine addr _ _ _ => ghostMine g addr

/-- Run a sequence of operations together with the ghost account record. -/
def runG (hm : HashModel) (fuel : ℕ) : BC × GMap → List Op → Option (BC × GMap)
  | p, [] => some p
  | (s, g), op :: rest =>
    match runOp hm fuel s op with
    | none => none
    | some s' => runG hm fuel (s', gstep hm s g op) rest

/-- Operations that never submit a system (`sender = "0"`) transaction. -/
def nonSystemOps (ops : List Op) : Bool :=
  ops.all fun op =>
    match op with
    | .submit t => t.sender ≠ "0"
    | .mine _ _ _ _ => true

/-- All admitted transactions held by the ledger: chain transactions in
block order followed by the pending pool. -/
def allTxs (s : BC) : List Tx :=
  (s.chain.map Block.transactions).flatten ++ s.pending_transactions

/-- Total amount credited to `a` by a transaction list (recipient side,
mining rewards included). -/
def creditSum (txs : List Tx) (a : String) : ℤ :=
  (txs.map fun t => if t.recipient = a then t.amount else 0).sum

/-- Total amount debited from `a` by a transaction list (sender side;
system transactions debit nobody). -/
def debitSum (txs : List Tx) (a : String) : ℤ :=
  (txs.map fun t => if t.sender = a ∧ t.sender ≠ "0" then t.amount else 0).sum

/-- The balance value predicted from the ghost record and the held
transactions: 100 for an account created as a sender, plus credits, minus
debits. -/
def balSpec (g : GMap) (txs : List Tx) (a : String) : ℤ :=
  (if aget? g a = some true then 100 else 0) + creditSum txs a - debitSum txs a

/-- The claimed balance formula of the specification, written from its
words (for comparison with the code): credits over chain + pending minus
debits over chain + pending, plus an initial 100 credited iff the account
appears as a sender in some admitted (chain or pending) transaction. -/
def specClaimedBalance (s : BC) (a : String) : ℤ :=
  (if (allTxs s).any (fun t => t.sender = a) then 100 else 0)
    + creditSum (allTxs s) a
    - ((allTxs s).map fun t => if t.sender = a then t.amount else 0).sum

/-- The invariant tying the live balance table to the transactions held and
the ghost account record; it also records that the pending pool holds no
system transaction. -/
def Inv (s : BC) (g : GMap) : Prop :=
  (∀ a, (aget? s.user_balances a).isSome ↔ (aget? g a).isSome)
  ∧ (∀ a, getBalance s a = balSpec g (allTxs s) a)
  ∧ (∀ t ∈ s.pending_transactions, t.sender ≠ "0")

/-! ### Replay predicates for duplicate rejection -/

/-- All submissions of a sequence are admitted when fed to
`add_transaction` in order. -/
def allAdmitted (hm : HashModel) (s : BC) : List Tx → Bool
  | [] => true
  | t :: rest =>
    (addTransaction hm s t).1 && allAdmitted hm (addTransaction hm s t).2 rest

/-- Feed a sequence of submissions to `add_transaction` in order, keeping
the final state. -/
def addMany (hm : HashModel) (s : BC) (txs : List Tx) : BC :=
  txs.foldl (fun s t => (addTransaction hm s t).2) s

/-- Every submission of a replayed sequence is rejected, and each rejection
appends exactly one `"Duplicate transaction"` entry to the rejected pool. -/
def replayAllRejected (hm : HashModel) (s : BC) : List Tx → Bool
  | [] => true
  | t :: rest =>
    let r := addTransaction hm s t
    !r.1
      && decide (r.2.rejected_transactions
            = s.rejected_transactions ++ [(t, "Duplicate transaction")])
      && replayAllRejected hm r.2 rest

/-! ### The specification's words for chain-replay balances (C2)

`replace_chain` claims to rebuild balances by replaying the new chain; the
following definition is written from the specification's words — 100
credited the first time an account appears as a sender, 0 for a new
recipient, each transfer debiting the sender and crediting the recipient,
each mining reward credited to its recipient — to compare with what the
code computes. -/

/-- One transaction of the specification's replay. -/
def specReplayTx (bal : Balances) (t : Tx) : Balances :=
  let b1 := if t.sender ≠ "0" ∧ (aget? bal t.sender).isNone
    then aset bal t.sender 100 else bal
  let b2 := if (aget? b1 t.recipient).isNone then aset b1 t.recipient 0 else b1
  if t.sender = "0" then
    aset b2 t.recipient ((aget? b2 t.recipient).getD 0 + t.amount)
  else
    let b3 := aset b2 t.sender ((aget? b2 t.sender).getD 0 - t.amount)
    aset b3 t.recipient ((aget? b3 t.recipient).getD 0 + t.amount)

/-- The specification's replay of a whole chain, from empty balances. -/
def specReplayChain (blocks : List Block) : Balances :=
  ((blocks.map Block.transactions).flatten).foldl specReplayTx []

/-! ### Concrete inputs for counterexamples and witnesses -/

/-- A fresh ledger with difficulty 0 (so proof-of-work is immediate) under
the concrete hash model. -/
def bc0 : BC := freshBC testHM 0 0

/-- A system transaction `"0" → "m"` of amount 5. -/
def txSys5 : Tx := ⟨"0", "m", 5, 1, "sig0"⟩

/-- An overspend: `alice → bob`, amount 150, on a fresh ledger. -/
def txOver : Tx := ⟨"alice", "bob", 150, 1, "s1"⟩

/-- `alice → bob`, amount 30. -/
def txAB30 : Tx := ⟨"alice", "bob", 30, 1, "s2"⟩

/-- A reward-style submission `"0" → "alice"` of amount 50. -/
def txSys50 : Tx := ⟨"0", "alice", 50, 1, "u1"⟩

/-- `alice → bob`, amount 80. -/
def txAB80 : Tx := ⟨"alice", "bob", 80, 2, "u2"⟩

/-- The ledger after admitting `txSys50` then `txAB80` on `bc0`. -/
def bcC6 : BC := (addTransaction testHM (addTransaction testHM bc0 txSys50).2 txAB80).2

/-- Mining on `bcC6` (difficulty 0, fuel 0 suffices). -/
def mineC6 : Option (Block × BC) := minePending testHM 0 "m" 3 "rs" 4 bcC6

/-- A genesis block under the concrete hash model. -/
def gBlock : Block := mkBlock testHM 0 [] 0 "0" 0 4

/-- A transfer and a reward packed into a block extending `gBlock`. -/
def txC2 : Tx := ⟨"alice", "bob", 30, 1, "c1"⟩

/-- The mining reward of the candidate chain for C2. -/
def rwC2 : Tx := ⟨"0", "miner", 1, 2, "c2"⟩

/-- The second block of the candidate chain for C2 (difficulty 0). -/
def blkC2 : Block := mkBlock testHM 1 [txC2, rwC2] 3 gBlock.hash 0 0

/-- The candidate chain for C2. -/
def chainC2 : List Block := [gBlock, blkC2]

/-- The result of `replace_chain` on a fresh ledger with `chainC2`. -/
def replC2 : Bool × BC := replaceChain testHM bc0 chainC2

/-- A well-formed block of index 1 whose previous hash matches nothing. -/
def blkBadPrev : Block := mkBlock testHM 1 [] 5 "garbage" 0 0

/-- A fresh full node over `bc0`. -/
def nodeFresh : Node := ⟨bc0, true, false, "m"⟩

/-- Three distinct transfers between fresh parties. -/
def txW1 : Tx := ⟨"a1", "b1", 1, 1, "w1"⟩

/-- Second transfer between fresh parties. -/
def txW2 : Tx := ⟨"a2", "b2", 1, 2, "w2"⟩

/-- Third transfer between fresh parties. -/
def txW3 : Tx := ⟨"a3", "b3", 1, 3, "w3"⟩

/-- The ledger holding `txW1` and `txW2` as pending. -/
def bcTwoPending : BC := (addTransaction testHM (addTransaction testHM bc0 txW1).2 txW2).2

/-- A miner node whose background mining thread has been started. -/
def nodeThread : Node := ⟨bcTwoPending, true, true, "m"⟩

/-- A miner node whose background mining thread has not been started. -/
def nodeNoThread : Node := ⟨bcTwoPending, true, false, "m"⟩

/-- The sender's balance after the lazy initialization step (100 for an
unknown sender). -/
def initSenderBal (s : BC) (t : Tx) : ℤ :=
  (aget? s.user_balances t.sender).getD 100

/-- The recipient's balance after the lazy initialization step (0 for an
unknown recipient). -/
def initRecipientBal (s : BC) (t : Tx) : ℤ :=
  (aget? s.user_balances t.recipient).getD 0

/-- The simulated balances accumulated by `is_chain_valid` over the whole
chain (`none` when the chain is empty or fails validation). -/
def chainSimBal (hm : HashModel) (s : BC) : Option Balances :=
  match s.chain with
  | [] => none
  | g :: rest => checkFrom? hm [] g rest

/-- A placeholder block used only as the default of `Option.getD` in
closed statements. -/
def defaultBlock : Block := ⟨0, [], 0, "", 0, 0, ""⟩

/-- A second overspend (`carol → dave`, 200) for witness runs. -/
def txOver2 : Tx := ⟨"carol", "dave", 200, 1, "s9"⟩

/-- A concrete operation sequence: one transfer, then one mining step. -/
def c3ops : List Op := [Op.submit txW1, Op.mine "m" 9 "rr" 10]

/-- The ghost run of `c3ops` from a fresh ledger. -/
def c3pair : BC × GMap :=
  (runG testHM 0 (freshBC testHM 0 0, []) c3ops).getD (freshBC testHM 0 0, [])

/-- The ledger holding one admitted transfer (`txAB30`). -/
def bcOneTx : BC := (addTransaction testHM bc0 txAB30).2

/-- The concrete mining result on `bcOneTx`. -/
def c6wPair : Block × BC :=
  (minePending testHM 0 "m" 2 "rs" 3 bcOneTx).getD (defaultBlock, bc0)

/-- The ledger after admitting the third transfer on `bcTwoPending`. -/
def bcThreePending : BC := (addTransaction testHM bcTwoPending txW3).2

/-- The concrete mining result triggered by the third admission (C8). -/
def c8Pair : Block × BC :=
  (minePending testHM 0 "m" 9 "rr" 10 bcThreePending).getD (defaultBlock, bc0)

/-- A well-formed block properly extending the fresh chain (C7 witness). -/
def blkGood : Block := mkBlock testHM 1 [] 7 gBlock.hash 0 0

/-! ## Association-map lemmas -/

theorem aget?_aset_self {α : Type} (m : AMap α) (k : String) (v : α) :
    aget? (aset m k v) k = some v := by
  induction m with
  | nil => simp [aset, aget?]
  | cons p rest ih =>
    obtain ⟨k', v'⟩ := p
    by_cases h : k' = k
    · simp [aset, aget?, h]
    · simp [aset, aget?, h, ih]

theorem aget?_aset_ne {α : Type} (m : AMap α) {k a : String} (v : α) (h : k ≠ a) :
    aget? (aset m k v) a = aget? m a := by
  induction m with
  | nil => simp [aset, aget?, h]
  | cons p rest ih =>
    obtain ⟨k', v'⟩ := p
    by_cases h' : k' = k
    · subst h'
      simp [aset, aget?, h]
    · simp [aset, aget?, h', ih]

theorem aget?_aset_isSome {α : Type} (m : AMap α) (k a : String) (v : α) :
    (aget? (aset m k v) a).isSome ↔ a = k ∨ (aget? m a).isSome := by
  by_cases h : a = k
  · subst h
    simp [aget?_aset_self]
  · rw [aget?_aset_ne m v (fun he => h he.symm)]
    simp [h]

/-! ## Lazy-initialization lemmas -/

theorem exists_some_of_not_isNone {α : Type} {x : Option α} (h : ¬ x.isNone = true) :
    ∃ v, x = some v := by
  cases x with
  | none => simp at h
  | some v => exact ⟨v, rfl⟩

theorem aget?_init2_sender {α : Type} (m : AMap α) (t : Tx) (vs vr : α) :
    aget? (init2 m t vs vr) t.sender = some ((aget? m t.sender).getD vs) := by
  unfold init2
  by_cases h1 : (aget? m t.sender).isNone
  · have hnone : aget? m t.sender = none := Option.isNone_iff_eq_none.mp h1
    rw [if_pos h1]
    by_cases h2 : (aget? (aset m t.sender vs) t.recipient).isNone
    · have hne : t.recipient ≠ t.sender := by
        intro he
        rw [he, aget?_aset_self] at h2
        simp at h2
      rw [if_pos h2, aget?_aset_ne _ _ hne, aget?_aset_self, hnone]
      rfl
    · rw [if_neg h2, aget?_aset_self, hnone]
      rfl
  · obtain ⟨v, hv⟩ := exists_some_of_not_isNone h1
    rw [if_neg h1]
    by_cases h2 : (aget? m t.recipient).isNone
    · have hne : t.recipient ≠ t.sender := by
        intro he
        rw [he, hv] at h2
        simp at h2
      rw [if_pos h2, aget?_aset_ne _ _ hne, hv]
      rfl
    · rw [if_neg h2, hv]
      rfl

theorem aget?_init2_recipient {α : Type} (m : AMap α) (t : Tx) (vs vr : α)
    (hne : t.recipient ≠ t.sender) :
    aget? (init2 m t vs vr) t.recipient = some ((aget? m t.recipient).getD vr) := by
  unfold init2
  by_cases h1 : (aget? m t.sender).isNone
  · rw [if_pos h1]
    have hrec : aget? (aset m t.sender vs) t.recipient = aget? m t.recipient :=
      aget?_aset_ne _ _ (fun he => hne he.symm)
    by_cases h2 : (aget? (aset m t.sender vs) t.recipient).isNone
    · have hn : aget? m t.recipient = none := by
        rw [← hrec]
        exact Option.isNone_iff_eq_none.mp h2
      rw [if_pos h2, aget?_aset_self, hn]
      rfl
    · rw [if_neg h2, hrec]
      rw [hrec] at h2
      obtain ⟨v, hv⟩ := exists_some_of_not_isNone h2
      rw [hv]
      rfl
  · rw [if_neg h1]
    by_cases h2 : (aget? m t.recipient).isNone
    · rw [if_pos h2, aget?_aset_self, Option.isNone_iff_eq_none.mp h2]
      rfl
    · rw [if_neg h2]
      obtain ⟨v, hv⟩ := exists_some_of_not_isNone h2
      rw [hv]
      rfl

theorem aget?_init2_other {α : Type} (m : AMap α) (t : Tx) (vs vr : α) (a : String)
    (ha1 : a ≠ t.sender) (ha2 : a ≠ t.recipient) :
    aget? (init2 m t vs vr) a = aget? m a := by
  unfold init2
  by_cases h1 : (aget? m t.sender).isNone
  · rw [if_pos h1]
    by_cases h2 : (aget? (aset m t.sender vs) t.recipient).isNone
    · rw [if_pos h2, aget?_aset_ne _ _ (fun he => ha2 he.symm),
        aget?_aset_ne _ _ (fun he => ha1 he.symm)]
    · rw [if_neg h2, aget?_aset_ne _ _ (fun he => ha1 he.symm)]
  · rw [if_neg h1]
    by_cases h2 : (aget? m t.recipient).isNone
    · rw [if_pos h2, aget?_aset_ne _ _ (fun he => ha2 he.symm)]
    · rw [if_neg h2]

theorem aget?_init2_isSome {α : Type} (m : AMap α) (t : Tx) (vs vr : α) (a : String) :
    (aget? (init2 m t vs vr) a).isSome ↔
      a = t.sender ∨ a = t.recipient ∨ (aget? m a).isSome := by
  unfold init2
  by_cases h1 : (aget? m t.sender).isNone
  · rw [if_pos h1]
    by_cases h2 : (aget? (aset m t.sender vs) t.recipient).isNone
    · rw [if_pos h2, aget?_aset_isSome, aget?_aset_isSome]
      tauto
    · rw [if_neg h2, aget?_aset_isSome]
      have hsome : (aget? (aset m t.sender vs) t.recipient).isSome := by
        cases hx : aget? (aset m t.sender vs) t.recipient with
        | none => rw [hx] at h2; simp at h2
        | some v => rfl
      rw [aget?_aset_isSome] at hsome
      constructor
      · tauto
      · rintro (rfl | rfl | hs)
        · tauto
        · rcases hsome with h | h
          · left; exact h
          · right; exact h
        · tauto
  · have hsend : (aget? m t.sender).isSome := by
      obtain ⟨v, hv⟩ := exists_some_of_not_isNone h1
      rw [hv]; rfl
    rw [if_neg h1]
    by_cases h2 : (aget? m t.recipient).isNone
    · rw [if_pos h2, aget?_aset_isSome]
      constructor
      · rintro (rfl | hs) <;> tauto
      · rintro (rfl | rfl | hs)
        · right; exact hsend
        · left; rfl
        · right; exact hs
    · have hrec : (aget? m t.recipient).isSome := by
        obtain ⟨v, hv⟩ := exists_some_of_not_isNone h2
        rw [hv]; rfl
      rw [if_neg h2]
      constructor
      · tauto
      · rintro (rfl | rfl | hs)
        · exact hsend
        · exact hrec
        · exact hs

/-! ## Small structural lemmas -/

theorem getBalance_def (s : BC) (a : String) :
    getBalance s a = (aget? s.user_balances a).getD 0 := by
  unfold getBalance
  cases aget? s.user_balances a <;> rfl

theorem calcBlockHash_hash_irrel (hm : HashModel) (b : Block) (h : String) :
    calcBlockHash hm { b with hash := h } = calcBlockHash hm b := rfl

theorem mkBlock_hash (hm : HashModel) (i : ℕ) (txs : List Tx) (ts : ℤ)
    (ph : String) (n d : ℕ) :
    (mkBlock hm i txs ts ph n d).hash = calcBlockHash hm (mkBlock hm i txs ts ph n d) := rfl

/-! ## Debit/credit lemmas -/

theorem debitCredit_sender (ub2 : Balances) (t : Tx) (hne : t.sender ≠ t.recipient) :
    aget? (debitCredit ub2 t) t.sender
      = some ((aget? ub2 t.sender).getD 0 - t.amount) := by
  unfold debitCredit
  rw [aget?_aset_ne _ _ (fun he => hne he.symm), aget?_aset_self]

theorem debitCredit_recipient (ub2 : Balances) (t : Tx) (hne : t.sender ≠ t.recipient) :
    aget? (debitCredit ub2 t) t.recipient
      = some ((aget? ub2 t.recipient).getD 0 + t.amount) := by
  unfold debitCredit
  rw [aget?_aset_self, aget?_aset_ne _ _ hne]

theorem debitCredit_self (ub2 : Balances) (t : Tx) (heq : t.sender = t.recipient) :
    aget? (debitCredit ub2 t) t.sender = some ((aget? ub2 t.sender).getD 0) := by
  unfold debitCredit
  rw [heq, aget?_aset_self, aget?_aset_self]
  simp

theorem debitCredit_other (ub2 : Balances) (t : Tx) (a : String)
    (ha1 : a ≠ t.sender) (ha2 : a ≠ t.recipient) :
    aget? (debitCredit ub2 t) a = aget? ub2 a := by
  unfold debitCredit
  rw [aget?_aset_ne _ _ (fun he => ha2 he.symm), aget?_aset_ne _ _ (fun he => ha1 he.symm)]

theorem debitCredit_isSome (ub2 : Balances) (t : Tx) (a : String) :
    (aget? (debitCredit ub2 t) a).isSome ↔
      a = t.sender ∨ a = t.recipient ∨ (aget? ub2 a).isSome := by
  unfold debitCredit
  rw [aget?_aset_isSome, aget?_aset_isSome]
  tauto

/-! ## Branch lemmas for validation and admission -/

theorem itv_system (s : BC) (t : Tx) (hs : t.sender = "0") :
    isTransactionValid s t = (true, s) := by
  unfold isTransactionValid
  rw [if_pos hs]

theorem itv_reject (s : BC) (t : Tx) (hs : ¬ t.sender = "0")
    (hlt : (aget? (init2 s.user_balances t 100 0) t.sender).getD 0 < t.amount) :
    isTransactionValid s t
      = (false, rejectTx { s with user_balances := init2 s.user_balances t 100 0 } t
          ("Insufficient funds: "
            ++ floatRepr ((aget? (init2 s.user_balances t 100 0) t.sender).getD 0)
            ++ " < " ++ floatRepr t.amount)) := by
  unfold isTransactionValid
  rw [if_neg hs, if_pos hlt]

theorem itv_accept (s : BC) (t : Tx) (hs : ¬ t.sender = "0")
    (hge : ¬ (aget? (init2 s.user_balances t 100 0) t.sender).getD 0 < t.amount) :
    isTransactionValid s t
      = (true, { s with user_balances := debitCredit (init2 s.user_balances t 100 0) t }) := by
  unfold isTransactionValid
  rw [if_neg hs, if_neg hge]

theorem init2_senderBal (ub : Balances) (t : Tx) :
    (aget? (init2 ub t 100 0) t.sender).getD 0 = (aget? ub t.sender).getD 100 := by
  rw [aget?_init2_sender]
  rfl

theorem init2_recipientBal (ub : Balances) (t : Tx) (hne : t.recipient ≠ t.sender) :
    (aget? (init2 ub t 100 0) t.recipient).getD 0 = (aget? ub t.recipient).getD 0 := by
  rw [aget?_init2_recipient _ _ _ _ hne]
  rfl

theorem addTransaction_dup (hm : HashModel) (s : BC) (t : Tx)
    (h : isDuplicate hm s t = true) :
    addTransaction hm s t = (false, rejectTx s t "Duplicate transaction") := by
  simp [addTransaction, h]

theorem addTransaction_accept (hm : HashModel) (s : BC) (t : Tx)
    (hdup : isDuplicate hm s t = false) (hval : (isTransactionValid s t).1 = true) :
    addTransaction hm s t
      = (true, { (isTransactionValid s t).2 with pending_transactions :=
          (isTransactionValid s t).2.pending_transactions ++ [t] }) := by
  simp [addTransaction, hdup, hval]

theorem addTransaction_rejectFunds (hm : HashModel) (s : BC) (t : Tx)
    (hdup : isDuplicate hm s t = false) (hval : (isTransactionValid s t).1 = false) :
    addTransaction hm s t
      = (false, rejectTx (isTransactionValid s t).2 t "Insufficient funds") := by
  simp [addTransaction, hdup, hval]

theorem isTransactionValid_frame (s : BC) (t : Tx) :
    (isTransactionValid s t).2.chain = s.chain
    ∧ (isTransactionValid s t).2.pending_transactions = s.pending_transactions
    ∧ (isTransactionValid s t).2.rejected_transactions.length
        ≥ s.rejected_transactions.length
    ∧ (isTransactionValid s t).2.difficulty = s.difficulty
    ∧ (isTransactionValid s t).2.mining_reward = s.mining_reward := by
  by_cases hs : t.sender = "0"
  · rw [itv_system s t hs]
    exact ⟨rfl, rfl, le_refl _, rfl, rfl⟩
  · by_cases hlt : (aget? (init2 s.user_balances t 100 0) t.sender).getD 0 < t.amount
    · rw [itv_reject s t hs hlt]
      refine ⟨rfl, rfl, ?_, rfl, rfl⟩
      simp [rejectTx]
    · rw [itv_accept s t hs hlt]
      exact ⟨rfl, rfl, le_refl _, rfl, rfl⟩

/-! ## C10 — balance queries are total, pure reads -/

/-- C10: for an address absent from the balance table, `get_balance`
returns 0 and the operation leaves the ledger state (in particular the
balance table) unchanged. -/
theorem getBalanceOp_unknown (s : BC) (a : String)
    (h : aget? s.user_balances a = none) : getBalanceOp s a = (0, s) := by
  unfold getBalanceOp
  rw [h]

theorem getBalanceOp_unknown_witness :
    getBalanceOp bc0 "nobody" = (0, bc0) :=
  getBalanceOp_unknown bc0 "nobody" (by decide)

/-! ## C1 — effects of an admitted transaction -/

/-- C1 (counterexample): on a fresh ledger a system transaction
`"0" → "m"` of amount 5 is admitted and lands in the pending pool, but the
recipient's balance does not increase by the amount — it stays 0. -/
theorem addTransaction_system_counterexample :
    (addTransaction testHM bc0 txSys5).1 = true
    ∧ (addTransaction testHM bc0 txSys5).2.pending_transactions = [txSys5]
    ∧ getBalance (addTransaction testHM bc0 txSys5).2 txSys5.recipient
        ≠ getBalance bc0 txSys5.recipient + txSys5.amount := by
  decide

/-- C1 (amended): an admitted transaction is appended to the pending pool;
a system transaction leaves every balance unchanged; a non-system
transaction between distinct parties debits the sender and credits the
recipient by exactly the amount, measured from the lazily initialized
balances (100 for a brand-new sender, 0 for a brand-new recipient); an
admitted self-transfer leaves the sender's balance at its initialized
value. -/
theorem addTransaction_admitted_effects (hm : HashModel) (s : BC) (t : Tx)
    (hadm : (addTransaction hm s t).1 = true) :
    (addTransaction hm s t).2.pending_transactions = s.pending_transactions ++ [t]
    ∧ (t.sender = "0" → (addTransaction hm s t).2.user_balances = s.user_balances)
    ∧ (t.sender ≠ "0" → t.sender ≠ t.recipient →
        getBalance (addTransaction hm s t).2 t.sender = initSenderBal s t - t.amount
        ∧ getBalance (addTransaction hm s t).2 t.recipient
            = initRecipientBal s t + t.amount)
    ∧ (t.sender ≠ "0" → t.sender = t.recipient →
        getBalance (addTransaction hm s t).2 t.sender = initSenderBal s t) := by
  have hdup : isDuplicate hm s t = false := by
    cases h : isDuplicate hm s t
    · rfl
    · rw [addTransaction_dup hm s t h] at hadm
      simp at hadm
  have hval : (isTransactionValid s t).1 = true := by
    cases h : (isTransactionValid s t).1
    · rw [addTransaction_rejectFunds hm s t hdup h] at hadm
      simp at hadm
    · rfl
  rw [addTransaction_accept hm s t hdup hval]
  refine ⟨?_, ?_, ?_, ?_⟩
  · show (isTransactionValid s t).2.pending_transactions ++ [t] = s.pending_transactions ++ [t]
    rw [(isTransactionValid_frame s t).2.1]
  · intro hs
    show (isTransactionValid s t).2.user_balances = s.user_balances
    rw [itv_system s t hs]
  · intro hs hne
    by_cases hlt : (aget? (init2 s.user_balances t 100 0) t.sender).getD 0 < t.amount
    · rw [itv_reject s t hs hlt] at hval
      simp at hval
    · rw [itv_accept s t hs hlt]
      constructor
      · rw [getBalance_def]
        show (aget? (debitCredit (init2 s.user_balances t 100 0) t) t.sender).getD 0
          = initSenderBal s t - t.amount
        rw [debitCredit_sender _ _ hne]
        simp only [Option.getD_some]
        rw [init2_senderBal]
        rfl
      · rw [getBalance_def]
        show (aget? (debitCredit (init2 s.user_balances t 100 0) t) t.recipient).getD 0
          = initRecipientBal s t + t.amount
        rw [debitCredit_recipient _ _ hne]
        simp only [Option.getD_some]
        rw [init2_recipientBal _ _ (fun he => hne he.symm)]
        rfl
  · intro hs heq
    by_cases hlt : (aget? (init2 s.user_balances t 100 0) t.sender).getD 0 < t.amount
    · rw [itv_reject s t hs hlt] at hval
      simp at hval
    · rw [itv_accept s t hs hlt]
      rw [getBalance_def]
      show (aget? (debitCredit (init2 s.user_balances t 100 0) t) t.sender).getD 0
        = initSenderBal s t
      rw [debitCredit_self _ _ heq]
      simp only [Option.getD_some]
      rw [init2_senderBal]
      rfl

theorem addTransaction_admitted_effects_witness :
    (addTransaction testHM bc0 txW1).2.pending_transactions
        = bc0.pending_transactions ++ [txW1]
    ∧ (txW1.sender = "0" →
        (addTransaction testHM bc0 txW1).2.user_balances = bc0.user_balances)
    ∧ (txW1.sender ≠ "0" → txW1.sender ≠ txW1.recipient →
        getBalance (addTransaction testHM bc0 txW1).2 txW1.sender
            = initSenderBal bc0 txW1 - txW1.amount
        ∧ getBalance (addTransaction testHM bc0 txW1).2 txW1.recipient
            = initRecipientBal bc0 txW1 + txW1.amount)
    ∧ (txW1.sender ≠ "0" → txW1.sender = txW1.recipient →
        getBalance (addTransaction testHM bc0 txW1).2 txW1.sender
            = initSenderBal bc0 txW1) :=
  addTransaction_admitted_effects testHM bc0 txW1 (by decide)

/-! ## C4 — the overspend path records two rejection entries -/

/-- C4 (counterexample): the overspend `alice → bob, 150` on a fresh
ledger is rejected, but the rejected pool afterwards holds two entries for
the submission — the detailed reason and then the generic one — not
exactly one. -/
theorem addTransaction_overspend_counterexample :
    (addTransaction testHM bc0 txOver).1 = false
    ∧ (addTransaction testHM bc0 txOver).2.rejected_transactions.length = 2
    ∧ (addTransaction testHM bc0 txOver).2.rejected_transactions
        = [(txOver, "Insufficient funds: 100.0 < 150.0"),
           (txOver, "Insufficient funds")] := by
  decide

/-- C4 (amended): a non-duplicate submission from an unknown sender whose
amount exceeds the initial 100 is rejected, and the rejected pool gains
exactly two entries for it: first `"Insufficient funds: 100.0 < A"` (with
the amount substituted in float notation), then the generic
`"Insufficient funds"`. -/
theorem addTransaction_overspend_two_rejections (hm : HashModel) (s : BC) (t : Tx)
    (hdup : isDuplicate hm s t = false) (hs : ¬ t.sender = "0")
    (hnew : aget? s.user_balances t.sender = none) (hamt : 100 < t.amount) :
    (addTransaction hm s t).1 = false
    ∧ (addTransaction hm s t).2.rejected_transactions
        = s.rejected_transactions
          ++ [(t, "Insufficient funds: 100.0 < " ++ floatRepr t.amount),
              (t, "Insufficient funds")] := by
  have hbal : (aget? (init2 s.user_balances t 100 0) t.sender).getD 0 = 100 := by
    rw [init2_senderBal, hnew]
    rfl
  have hlt : (aget? (init2 s.user_balances t 100 0) t.sender).getD 0 < t.amount := by
    rw [hbal]
    exact hamt
  have hval : (isTransactionValid s t).1 = false := by
    rw [itv_reject s t hs hlt]
  rw [addTransaction_rejectFunds hm s t hdup hval]
  refine ⟨rfl, ?_⟩
  rw [itv_reject s t hs hlt]
  show (s.rejected_transactions
      ++ [(t, "Insufficient funds: "
            ++ floatRepr ((aget? (init2 s.user_balances t 100 0) t.sender).getD 0)
            ++ " < " ++ floatRepr t.amount)])
      ++ [(t, "Insufficient funds")]
    = s.rejected_transactions
      ++ [(t, "Insufficient funds: 100.0 < " ++ floatRepr t.amount),
          (t, "Insufficient funds")]
  rw [hbal]
  have hstr : ("Insufficient funds: " ++ floatRepr (100 : ℤ) ++ " < ")
      = "Insufficient funds: 100.0 < " := by decide
  rw [hstr, List.append_assoc]
  rfl

theorem addTransaction_overspend_witness :
    (addTransaction testHM bc0 txOver2).1 = false
    ∧ (addTransaction testHM bc0 txOver2).2.rejected_transactions
        = bc0.rejected_transactions
          ++ [(txOver2, "Insufficient funds: 100.0 < " ++ floatRepr txOver2.amount),
              (txOver2, "Insufficient funds")] :=
  addTransaction_overspend_two_rejections testHM bc0 txOver2
    (by decide) (by decide) (by decide) (by decide)

/-! ## C2 — `replace_chain` does not replay transfers into the balances -/

/-- C2 (code-bug evidence): a fresh ledger accepts the strictly longer,
valid candidate chain `chainC2` (genesis plus a block holding the transfer
`alice → bob, 30` and a mining reward), yet afterwards the stored balances
hold only the mining reward: `alice` and `bob` read 0, while the
balance rebuild described by the specification (`specReplayChain`) gives
`alice = 70`, `bob = 30`, `miner = 1`. -/
theorem replaceChain_reward_only_balances :
    replC2.1 = true
    ∧ getBalance replC2.2 "alice" = 0
    ∧ getBalance replC2.2 "bob" = 0
    ∧ getBalance replC2.2 "miner" = 1
    ∧ aget? (specReplayChain chainC2) "alice" = some 70
    ∧ aget? (specReplayChain chainC2) "bob" = some 30
    ∧ aget? (specReplayChain chainC2) "miner" = some 1 := by
  decide

/-! ## C7 — the dispatch of `handle_new_block` -/

/-- C7 (counterexample): a well-formed block with the successor index but
a wrong previous hash is answered with a consensus run, not a rejection. -/
theorem handleNewBlock_badprev_counterexample :
    blkBadPrev.index = 1
    ∧ latestBlock? nodeFresh.blockchain = some gBlock
    ∧ gBlock.index = 0
    ∧ blkBadPrev.previous_hash ≠ gBlock.hash
    ∧ isHashValid testHM blkBadPrev = true
    ∧ (handleNewBlock testHM nodeFresh blkBadPrev).1 = BlockAction.consensusRun := by
  decide

/-- C7 (amended): with a non-empty chain, `handle_new_block` appends (and
prunes pending) exactly when the block has the successor index, the tip's
hash as previous hash, and passes `is_hash_valid`; it runs consensus
exactly when the first two of those fail jointly while the block's index
exceeds the tip's index; in every other case — including a well-formed
successor whose previous hash mismatches nothing but proof-of-work — it
leaves the node unchanged. -/
theorem handleNewBlock_spec (hm : HashModel) (n : Node) (b : Block) (latest : Block)
    (htip : latestBlock? n.blockchain = some latest) :
    ((handleNewBlock hm n b).1 = BlockAction.appended ↔
      (b.index = latest.index + 1 ∧ b.previous_hash = latest.hash
        ∧ isHashValid hm b = true))
    ∧ ((handleNewBlock hm n b).1 = BlockAction.consensusRun ↔
      (¬ (b.index = latest.index + 1 ∧ b.previous_hash = latest.hash)
        ∧ latest.index < b.index))
    ∧ ((handleNewBlock hm n b).1 ≠ BlockAction.appended → (handleNewBlock hm n b).2 = n)
    ∧ ((handleNewBlock hm n b).1 = BlockAction.appended →
        (handleNewBlock hm n b).2 = { n with blockchain := removeTransactionsInBlock hm (updateBalances { n.blockchain with chain := n.blockchain.chain ++ [b] } b) b }) := by
  have hrw : handleNewBlock hm n b
      = (if b.index = latest.index + 1 ∧ b.previous_hash = latest.hash then
          if isHashValid hm b then
            (BlockAction.appended, { n with blockchain := removeTransactionsInBlock hm (updateBalances { n.blockchain with chain := n.blockchain.chain ++ [b] } b) b })
          else (BlockAction.rejected, n)
        else if latest.index < b.index then (BlockAction.consensusRun, n)
        else (BlockAction.rejected, n)) := by
    unfold handleNewBlock
    rw [htip]
  rw [hrw]
  by_cases hA : (b.index = latest.index + 1 ∧ b.previous_hash = latest.hash)
  · rw [if_pos hA]
    by_cases hW : isHashValid hm b
    · rw [if_pos hW]
      refine ⟨?_, ?_, ?_, ?_⟩
      · simp [hA, hW]
      · simp [hA]
      · intro h
        exact absurd rfl h
      · intro _
        rfl
    · rw [if_neg hW]
      refine ⟨?_, ?_, ?_, ?_⟩
      · constructor
        · intro h
          simp at h
        · rintro ⟨_, _, hw⟩
          exact absurd hw hW
      · simp [hA]
      · intro _
        rfl
      · intro h
        simp at h
  · rw [if_neg hA]
    by_cases hGt : latest.index < b.index
    · rw [if_pos hGt]
      refine ⟨?_, ?_, ?_, ?_⟩
      · constructor
        · intro h
          simp at h
        · rintro ⟨h1, h2, _⟩
          exact absurd ⟨h1, h2⟩ hA
      · simp [hA, hGt]
      · intro _
        rfl
      · intro h
        simp at h
    · rw [if_neg hGt]
      refine ⟨?_, ?_, ?_, ?_⟩
      · constructor
        · intro h
          simp at h
        · rintro ⟨h1, h2, _⟩
          exact absurd ⟨h1, h2⟩ hA
      · simp [hGt]
      · intro _
        rfl
      · intro h
        simp at h

theorem handleNewBlock_spec_witness :
    (((handleNewBlock testHM nodeFresh blkGood).1 = BlockAction.appended ↔
      (blkGood.index = gBlock.index + 1 ∧ blkGood.previous_hash = gBlock.hash
        ∧ isHashValid testHM blkGood = true))
    ∧ ((handleNewBlock testHM nodeFresh blkGood).1 = BlockAction.consensusRun ↔
      (¬ (blkGood.index = gBlock.index + 1 ∧ blkGood.previous_hash = gBlock.hash)
        ∧ gBlock.index < blkGood.index))
    ∧ ((handleNewBlock testHM nodeFresh blkGood).1 ≠ BlockAction.appended →
        (handleNewBlock testHM nodeFresh blkGood).2 = nodeFresh)
    ∧ ((handleNewBlock testHM nodeFresh blkGood).1 = BlockAction.appended →
        (handleNewBlock testHM nodeFresh blkGood).2 = { nodeFresh with blockchain := removeTransactionsInBlock testHM (updateBalances { nodeFresh.blockchain with chain := nodeFresh.blockchain.chain ++ [blkGood] } blkGood) blkGood })) :=
  handleNewBlock_spec testHM nodeFresh blkGood gBlock (by decide)

/-! ## C8 — the synchronous mining trigger -/

/-- C8 (counterexample): on a miner node whose background mining thread
has been started, the admission that brings the non-system pending count
to exactly 3 does not mine a block. -/
theorem handleNewTransaction_thread_counterexample :
    nodeThread.minerMode = true
    ∧ (nonSystemPending (addTransaction testHM nodeThread.blockchain txW3).2).length = 3
    ∧ (handleNewTransaction testHM 0 9 "rr" 10 nodeThread txW3).map
        (fun r => (r.1, r.2.1)) = some (true, none) := by
  decide

/-- C8 (amended): when the submission is not a duplicate, is admitted, the
node is a miner, the background mining thread has *not* been started, and
the post-admission non-system pending count is exactly 3, a block is mined
synchronously (and handed to the broadcast) and the node adopts the mined
state. -/
theorem handleNewTransaction_mines (hm : HashModel) (fuel : ℕ) (rts : ℤ) (rsig : String)
    (bts : ℤ) (n : Node) (t : Tx) (b : Block) (s' : BC)
    (hdup : isDuplicate hm n.blockchain t = false)
    (hadm : (addTransaction hm n.blockchain t).1 = true)
    (hminer : n.minerMode = true)
    (hthread : n.miningThreadStarted = false)
    (hcount : (nonSystemPending (addTransaction hm n.blockchain t).2).length = 3)
    (hmine : minePending hm fuel n.miningAddress rts rsig bts
        (addTransaction hm n.blockchain t).2 = some (b, s')) :
    handleNewTransaction hm fuel rts rsig bts n t
      = some (true, some b, { n with blockchain := s' }) := by
  unfold handleNewTransaction
  rw [if_neg (by simp [hdup])]
  rw [if_pos (by simp [hadm, hminer, hthread])]
  rw [if_pos hcount]
  rw [hmine]

theorem handleNewTransaction_mines_witness :
    handleNewTransaction testHM 0 9 "rr" 10 nodeNoThread txW3
      = some (true, some c8Pair.1, { nodeNoThread with blockchain := c8Pair.2 }) :=
  handleNewTransaction_mines testHM 0 9 "rr" 10 nodeNoThread txW3 c8Pair.1 c8Pair.2
    (by decide) (by decide) (by decide) (by decide) (by decide) (by decide)

/-! ## C5 — replaying admitted submissions -/

theorem not_dup_of_admitted (hm : HashModel) (s : BC) (t : Tx)
    (h : (addTransaction hm s t).1 = true) : isDuplicate hm s t = false := by
  cases hd : isDuplicate hm s t
  · rfl
  · rw [addTransaction_dup hm s t hd] at h
    simp at h

theorem valid_of_admitted (hm : HashModel) (s : BC) (t : Tx)
    (h : (addTransaction hm s t).1 = true) : (isTransactionValid s t).1 = true := by
  cases hv : (isTransactionValid s t).1
  · rw [addTransaction_rejectFunds hm s t (not_dup_of_admitted hm s t h) hv] at h
    simp at h
  · rfl

theorem addTransaction_admit_pending (hm : HashModel) (s : BC) (t : Tx)
    (h : (addTransaction hm s t).1 = true) :
    (addTransaction hm s t).2.pending_transactions = s.pending_transactions ++ [t] := by
  rw [addTransaction_accept hm s t (not_dup_of_admitted hm s t h) (valid_of_admitted hm s t h)]
  show (isTransactionValid s t).2.pending_transactions ++ [t] = s.pending_transactions ++ [t]
  rw [(isTransactionValid_frame s t).2.1]

theorem addTransaction_pending_mono (hm : HashModel) (s : BC) (t x : Tx)
    (hx : x ∈ s.pending_transactions) :
    x ∈ (addTransaction hm s t).2.pending_transactions := by
  cases hd : isDuplicate hm s t
  · cases hv : (isTransactionValid s t).1
    · rw [addTransaction_rejectFunds hm s t hd hv]
      show x ∈ (isTransactionValid s t).2.pending_transactions
      rw [(isTransactionValid_frame s t).2.1]
      exact hx
    · rw [addTransaction_accept hm s t hd hv]
      show x ∈ (isTransactionValid s t).2.pending_transactions ++ [t]
      rw [(isTransactionValid_frame s t).2.1]
      exact List.mem_append_left _ hx
  · rw [addTransaction_dup hm s t hd]
    exact hx

theorem addMany_nil (hm : HashModel) (s : BC) : addMany hm s [] = s := rfl

theorem addMany_cons (hm : HashModel) (s : BC) (t : Tx) (rest : List Tx) :
    addMany hm s (t :: rest) = addMany hm (addTransaction hm s t).2 rest := rfl

theorem addMany_pending_mono (hm : HashModel) (txs : List Tx) :
    ∀ (s : BC) (x : Tx), x ∈ s.pending_transactions →
      x ∈ (addMany hm s txs).pending_transactions := by
  induction txs with
  | nil => intro s x hx; exact hx
  | cons t rest ih =>
    intro s x hx
    rw [addMany_cons]
    exact ih _ x (addTransaction_pending_mono hm s t x hx)

theorem mem_pending_addMany (hm : HashModel) (txs : List Tx) :
    ∀ (s : BC), allAdmitted hm s txs = true →
      ∀ t ∈ txs, t ∈ (addMany hm s txs).pending_transactions := by
  induction txs with
  | nil => intro s _ t ht; cases ht
  | cons u rest ih =>
    intro s hall t ht
    have h1 : (addTransaction hm s u).1 = true
        ∧ allAdmitted hm (addTransaction hm s u).2 rest = true := by
      simpa [allAdmitted, Bool.and_eq_true] using hall
    rw [addMany_cons]
    rcases List.mem_cons.mp ht with rfl | hmem
    · apply addMany_pending_mono
      rw [addTransaction_admit_pending hm s t h1.1]
      simp
    · exact ih _ h1.2 t hmem

theorem isDuplicate_of_mem_pending (hm : HashModel) (s : BC) (t : Tx)
    (h : t ∈ s.pending_transactions) : isDuplicate hm s t = true := by
  unfold isDuplicate
  simp only [Bool.or_eq_true, List.any_eq_true]
  exact Or.inl (Or.inl ⟨t, h, by simp⟩)

theorem addTransaction_of_mem_pending (hm : HashModel) (s : BC) (t : Tx)
    (h : t ∈ s.pending_transactions) :
    addTransaction hm s t = (false, rejectTx s t "Duplicate transaction") :=
  addTransaction_dup hm s t (isDuplicate_of_mem_pending hm s t h)

theorem replay_rejected_of_mem (hm : HashModel) (txs : List Tx) :
    ∀ (s : BC), (∀ t ∈ txs, t ∈ s.pending_transactions) →
      replayAllRejected hm s txs = true := by
  induction txs with
  | nil => intro s _; rfl
  | cons u rest ih =>
    intro s hmem
    have hu : u ∈ s.pending_transactions := hmem u (List.mem_cons_self u rest)
    have heq := addTransaction_of_mem_pending hm s u hu
    unfold replayAllRejected
    rw [heq]
    simp only [Bool.not_false, Bool.true_and, rejectTx, Bool.and_eq_true, decide_eq_true_eq]
    refine ⟨by simp, ?_⟩
    apply ih
    intro t ht
    exact hmem t (List.mem_cons_of_mem _ ht)

/-- C5: if every submission of a sequence was admitted by
`add_transaction`, replaying the whole sequence a second time rejects
every submission, each time recording exactly one
`"Duplicate transaction"` entry in the rejected pool. -/
theorem duplicate_replay_rejected (hm : HashModel) (s : BC) (txs : List Tx)
    (h : allAdmitted hm s txs = true) :
    replayAllRejected hm (addMany hm s txs) txs = true :=
  replay_rejected_of_mem hm txs _ (fun t ht => mem_pending_addMany hm txs s h t ht)

theorem duplicate_replay_rejected_witness :
    replayAllRejected testHM (addMany testHM bc0 [txW1, txW2]) [txW1, txW2] = true :=
  duplicate_replay_rejected testHM bc0 [txW1, txW2] (by decide)

/-! ## C9 — chain validity is closed under prefixes -/

theorem checkFrom?_append (hm : HashModel) (l1 l2 : List Block) :
    ∀ (bal : Balances) (prev : Block),
      checkFrom? hm bal prev (l1 ++ l2)
        = (checkFrom? hm bal prev l1).bind
            (fun bal' => checkFrom? hm bal' (l1.getLastD prev) l2) := by
  induction l1 with
  | nil =>
    intro bal prev
    simp [checkFrom?, List.getLastD]
  | cons b rest ih =>
    intro bal prev
    show checkFrom? hm bal prev (b :: (rest ++ l2)) = _
    simp only [checkFrom?]
    by_cases hc : (b.hash = calcBlockHash hm b ∧ b.previous_hash = prev.hash
        ∧ isHashValid hm b = true)
    · rw [if_pos hc, if_pos hc]
      cases hs : simTxs bal b.transactions with
      | none => simp
      | some bal1 =>
        simp only [List.getLastD_cons]
        exact ih bal1 b
    · rw [if_neg hc, if_neg hc]
      simp

/-- C9: a chain passing `is_chain_valid` keeps passing it after truncation
to any prefix. -/
theorem isChainValidL_prefix (hm : HashModel) (C : List Block) (k : ℕ)
    (h : isChainValidL hm C = true) :
    isChainValidL hm (C.take k) = true := by
  cases C with
  | nil => simp [isChainValidL]
  | cons g rest =>
    cases k with
    | zero => simp [isChainValidL]
    | succ k =>
      rw [List.take_succ_cons]
      show (checkFrom? hm [] g (rest.take k)).isSome = true
      have h' : (checkFrom? hm [] g rest).isSome = true := h
      rw [show rest = rest.take k ++ rest.drop k from (List.take_append_drop k rest).symm,
        checkFrom?_append] at h'
      cases hx : checkFrom? hm [] g (rest.take k) with
      | none =>
        rw [hx] at h'
        simp at h'
      | some bal => simp

theorem isChainValidL_prefix_witness :
    isChainValidL testHM (chainC2.take 1) = true :=
  isChainValidL_prefix testHM chainC2 1 (by decide)

/-! ## C6 — mining the pending pool -/

theorem mineBlock_spec (hm : HashModel) :
    ∀ (fuel : ℕ) (b b' : Block), mineBlock hm fuel b = some b' →
      b'.transactions = b.transactions ∧ b'.index = b.index
      ∧ b'.previous_hash = b.previous_hash ∧ b'.difficulty = b.difficulty
      ∧ powOk b' = true
      ∧ (b.hash = calcBlockHash hm b → b'.hash = calcBlockHash hm b') := by
  intro fuel
  induction fuel with
  | zero =>
    intro b b' h
    unfold mineBlock at h
    by_cases hp : powOk b
    · rw [if_pos hp] at h
      injection h with h
      subst h
      exact ⟨rfl, rfl, rfl, rfl, hp, fun hh => hh⟩
    · rw [if_neg hp] at h
      cases h
  | succ fuel ih =>
    intro b b' h
    unfold mineBlock at h
    by_cases hp : powOk b
    · rw [if_pos hp] at h
      injection h with h
      subst h
      exact ⟨rfl, rfl, rfl, rfl, hp, fun hh => hh⟩
    · rw [if_neg hp] at h
      obtain ⟨h1, h2, h3, h4, h5, h6⟩ := ih _ _ h
      exact ⟨h1, h2, h3, h4, h5, fun _ => h6 rfl⟩

theorem rewardStep_nonsystem (st : BC) (t : Tx) (h : ¬ t.sender = "0") :
    rewardStep st t = st := by
  unfold rewardStep
  rw [if_neg h]

theorem foldl_rewardStep_nonsystem (l : List Tx) :
    ∀ (st : BC), (∀ t ∈ l, t.sender ≠ "0") → List.foldl rewardStep st l = st := by
  induction l with
  | nil => intro st _; rfl
  | cons t rest ih =>
    intro st hl
    rw [List.foldl_cons, rewardStep_nonsystem st t (hl t (List.mem_cons_self t rest))]
    exact ih st (fun x hx => hl x (List.mem_cons_of_mem _ hx))

theorem rewardStep_frame (st : BC) (t : Tx) :
    (rewardStep st t).chain = st.chain
    ∧ (rewardStep st t).pending_transactions = st.pending_transactions
    ∧ (rewardStep st t).rejected_transactions = st.rejected_transactions := by
  unfold rewardStep
  by_cases h : t.sender = "0"
  · rw [if_pos h]
    cases aget? st.user_balances t.recipient <;> exact ⟨rfl, rfl, rfl⟩
  · rw [if_neg h]
    exact ⟨rfl, rfl, rfl⟩

theorem foldl_rewardStep_frame (l : List Tx) :
    ∀ (st : BC), (List.foldl rewardStep st l).chain = st.chain
      ∧ (List.foldl rewardStep st l).pending_transactions = st.pending_transactions
      ∧ (List.foldl rewardStep st l).rejected_transactions = st.rejected_transactions := by
  induction l with
  | nil => intro st; exact ⟨rfl, rfl, rfl⟩
  | cons t rest ih =>
    intro st
    rw [List.foldl_cons]
    obtain ⟨f1, f2, f3⟩ := ih (rewardStep st t)
    obtain ⟨g1, g2, g3⟩ := rewardStep_frame st t
    exact ⟨f1.trans g1, f2.trans g2, f3.trans g3⟩

theorem updateBalances_frame (s : BC) (b : Block) :
    (updateBalances s b).chain = s.chain
    ∧ (updateBalances s b).pending_transactions = s.pending_transactions
    ∧ (updateBalances s b).rejected_transactions = s.rejected_transactions :=
  foldl_rewardStep_frame b.transactions s

theorem simTx_system (bal : Balances) (t : Tx) (hs : t.sender = "0") :
    (simTx bal t).isSome = true := by
  unfold simTx
  rw [if_pos hs]
  rfl

theorem simTxs_append (l1 l2 : List Tx) :
    ∀ (bal : Balances),
      simTxs bal (l1 ++ l2) = (simTxs bal l1).bind (fun b => simTxs b l2) := by
  induction l1 with
  | nil =>
    intro bal
    simp [simTxs]
  | cons t rest ih =>
    intro bal
    simp only [List.cons_append, simTxs]
    cases hs : simTx bal t with
    | none => simp
    | some b2 => simp [ih]

theorem getLastD_of_getLast? (rest : List Block) :
    ∀ (g tip : Block), (g :: rest).getLast? = some tip → rest.getLastD g = tip := by
  induction rest with
  | nil =>
    intro g tip h
    have h2 : some g = some tip := by
      rw [← h]
      rfl
    injection h2
  | cons r rest' ih =>
    intro g tip h
    have h' : (r :: rest').getLast? = some tip := by
      rw [List.getLast?_cons_cons] at h
      exact h
    rw [List.getLastD_cons]
    exact ih r tip h'

/-- C6 (counterexample): both submissions — a system transaction
`"0" → alice, 50` and the transfer `alice → bob, 80` — are admitted on a
fresh ledger, the chain is valid before mining, mining succeeds, and
afterwards `is_chain_valid` is false: the simulated replay gives alice
only 50 when her transfer of 80 is reached. -/
theorem minePending_invalidates_chain_counterexample :
    (addTransaction testHM bc0 txSys50).1 = true
    ∧ (addTransaction testHM (addTransaction testHM bc0 txSys50).2 txAB80).1 = true
    ∧ isChainValid testHM bcC6 = true
    ∧ mineC6.isSome = true
    ∧ mineC6.map (fun p => isChainValid testHM p.2) = some false := by
  decide

/-- C6 (amended): when mining succeeds, the mined block is well-formed,
points at the previous tip, holds all pending transactions followed by the
reward transaction `"0" → miner` of amount `mining_reward`, becomes the
new chain tip, and the pending pool is cleared; if no pending transaction
is a system transaction, the miner's balance is credited with the reward
(from 0 if unknown); and the chain stays valid provided it was valid and
the simulated-balance replay of the chain extends over the pending pool —
which an admitted-but-unreplayable pending pool (e.g. one fed by system
submissions) can violate. -/
theorem minePending_spec (hm : HashModel) (fuel : ℕ) (addr : String) (rts : ℤ)
    (rsig : String) (bts : ℤ) (s : BC) (tip b : Block) (s' : BC)
    (htip : latestBlock? s = some tip)
    (hmine : minePending hm fuel addr rts rsig bts s = some (b, s')) :
    isHashValid hm b = true
    ∧ b.previous_hash = tip.hash
    ∧ b.transactions = s.pending_transactions ++ [⟨"0", addr, s.mining_reward, rts, rsig⟩]
    ∧ s'.chain = s.chain ++ [b]
    ∧ s'.pending_transactions = []
    ∧ ((∀ t ∈ s.pending_transactions, t.sender ≠ "0") →
        getBalance s' addr = getBalance s addr + s.mining_reward)
    ∧ (isChainValid hm s = true →
        ((chainSimBal hm s).bind
          (fun bal => simTxs bal s.pending_transactions)).isSome = true →
        isChainValid hm s' = true) := by
  have hunf : minePending hm fuel addr rts rsig bts s
      = (match mineBlock hm fuel (mkBlock hm s.chain.length
            (s.pending_transactions ++ [⟨"0", addr, s.mining_reward, rts, rsig⟩])
            bts tip.hash 0 s.difficulty) with
        | none => none
        | some bk => some (bk, { updateBalances { s with chain := s.chain ++ [bk] } bk with pending_transactions := [] })) := by
    unfold minePending
    rw [htip]
  rw [hunf] at hmine
  cases hmb : mineBlock hm fuel (mkBlock hm s.chain.length
      (s.pending_transactions ++ [⟨"0", addr, s.mining_reward, rts, rsig⟩])
      bts tip.hash 0 s.difficulty) with
  | none =>
    rw [hmb] at hmine
    cases hmine
  | some bk =>
    rw [hmb] at hmine
    injection hmine with hmine
    have hb : b = bk := (congrArg Prod.fst hmine).symm
    have hs2 : { updateBalances { s with chain := s.chain ++ [bk] } bk with pending_transactions := [] } = s' := congrArg Prod.snd hmine
    subst hb
    obtain ⟨m1, m2, m3, m4, m5, m6⟩ := mineBlock_spec hm fuel _ b hmb
    have htx : b.transactions
        = s.pending_transactions ++ [⟨"0", addr, s.mining_reward, rts, rsig⟩] := m1
    have hprev : b.previous_hash = tip.hash := m3
    have hhash : b.hash = calcBlockHash hm b := m6 rfl
    have hwf : isHashValid hm b = true := by
      unfold isHashValid
      rw [m5, hhash]
      simp
    have hchain' : s'.chain = s.chain ++ [b] := by
      rw [← hs2]
      exact (updateBalances_frame { s with chain := s.chain ++ [b] } b).1
    have hpend' : s'.pending_transactions = [] := by
      rw [← hs2]
    refine ⟨hwf, hprev, htx, hchain', hpend', ?_, ?_⟩
    · intro hns
      rw [← hs2]
      show getBalance (updateBalances { s with chain := s.chain ++ [b] } b) addr
        = getBalance s addr + s.mining_reward
      unfold updateBalances
      rw [htx, List.foldl_append,
        foldl_rewardStep_nonsystem s.pending_transactions _ hns]
      show getBalance (rewardStep { s with chain := s.chain ++ [b] }
        ⟨"0", addr, s.mining_reward, rts, rsig⟩) addr = getBalance s addr + s.mining_reward
      unfold rewardStep
      rw [if_pos rfl]
      cases hv : aget? s.user_balances addr with
      | none =>
        show getBalance { { s with chain := s.chain ++ [b] } with user_balances := aset s.user_balances addr s.mining_reward } addr = _
        rw [getBalance_def]
        show (aget? (aset s.user_balances addr s.mining_reward) addr).getD 0 = _
        rw [aget?_aset_self, getBalance_def, hv]
        simp
      | some v =>
        show getBalance { { s with chain := s.chain ++ [b] } with user_balances := aset s.user_balances addr (v + s.mining_reward) } addr = _
        rw [getBalance_def]
        show (aget? (aset s.user_balances addr (v + s.mining_reward)) addr).getD 0 = _
        rw [aget?_aset_self, getBalance_def, hv]
        rfl
    · intro _ hsim
      cases hchain : s.chain with
      | nil =>
        have h0 : s.chain.getLast? = some tip := htip
        rw [hchain] at h0
        simp at h0
      | cons g rest =>
        have hcsb : chainSimBal hm s = checkFrom? hm [] g rest := by
          unfold chainSimBal
          rw [hchain]
        rw [hcsb] at hsim
        cases hcb : checkFrom? hm [] g rest with
        | none =>
          rw [hcb] at hsim
          simp at hsim
        | some bal =>
          rw [hcb] at hsim
          simp only [Option.some_bind] at hsim
          have htipD : rest.getLastD g = tip := by
            apply getLastD_of_getLast? rest g tip
            rw [← hchain]
            exact htip
          show isChainValidL hm s'.chain = true
          rw [hchain', hchain]
          show (checkFrom? hm [] g (rest ++ [b])).isSome = true
          rw [checkFrom?_append, hcb]
          simp only [Option.some_bind]
          simp only [checkFrom?]
          rw [if_pos ⟨hhash, htipD.symm ▸ hprev, hwf⟩]
          rw [htx, simTxs_append]
          cases hsp : simTxs bal s.pending_transactions with
          | none =>
            rw [hsp] at hsim
            simp at hsim
          | some bal2 =>
            simp only [Option.some_bind]
            cases hst : simTx bal2 ⟨"0", addr, s.mining_reward, rts, rsig⟩ with
            | none =>
              have hsys := simTx_system bal2 ⟨"0", addr, s.mining_reward, rts, rsig⟩ rfl
              rw [hst] at hsys
              cases hsys
            | some bal3 =>
              simp only [simTxs]
              rw [hst]
              rfl


theorem minePending_spec_witness :
    isHashValid testHM c6wPair.1 = true
    ∧ c6wPair.1.previous_hash = gBlock.hash
    ∧ c6wPair.1.transactions
        = bcOneTx.pending_transactions ++ [⟨"0", "m", bcOneTx.mining_reward, 2, "rs"⟩]
    ∧ c6wPair.2.chain = bcOneTx.chain ++ [c6wPair.1]
    ∧ c6wPair.2.pending_transactions = []
    ∧ ((∀ t ∈ bcOneTx.pending_transactions, t.sender ≠ "0") →
        getBalance c6wPair.2 "m" = getBalance bcOneTx "m" + bcOneTx.mining_reward)
    ∧ (isChainValid testHM bcOneTx = true →
        ((chainSimBal testHM bcOneTx).bind
          (fun bal => simTxs bal bcOneTx.pending_transactions)).isSome = true →
        isChainValid testHM c6wPair.2 = true) :=
  minePending_spec testHM 0 "m" 2 "rs" 3 bcOneTx gBlock c6wPair.1 c6wPair.2
    (by decide) (by decide)


/-! ## C3 — the running balance invariant -/

theorem creditSum_append (l1 l2 : List Tx) (a : String) :
    creditSum (l1 ++ l2) a = creditSum l1 a + creditSum l2 a := by
  unfold creditSum
  rw [List.map_append, List.sum_append]

theorem debitSum_append (l1 l2 : List Tx) (a : String) :
    debitSum (l1 ++ l2) a = debitSum l1 a + debitSum l2 a := by
  unfold debitSum
  rw [List.map_append, List.sum_append]

theorem creditSum_single (t : Tx) (a : String) :
    creditSum [t] a = if t.recipient = a then t.amount else 0 := by
  unfold creditSum
  simp

theorem debitSum_single (t : Tx) (a : String) :
    debitSum [t] a = if t.sender = a ∧ t.sender ≠ "0" then t.amount else 0 := by
  unfold debitSum
  simp

theorem inv_rejectTx (s : BC) (g : GMap) (t : Tx) (r : String) (h : Inv s g) :
    Inv (rejectTx s t r) g := by
  obtain ⟨h1, h2, h3⟩ := h
  refine ⟨h1, ?_, h3⟩
  intro a
  show getBalance s a = balSpec g (allTxs s) a
  exact h2 a

theorem map_none_of_iso {α β : Type} {m1 : AMap α} {m2 : AMap β}
    (h : ∀ a, (aget? m1 a).isSome ↔ (aget? m2 a).isSome) {x : String}
    (hx : aget? m2 x = none) : aget? m1 x = none := by
  cases hub : aget? m1 x with
  | none => rfl
  | some v =>
    have hs : (aget? m2 x).isSome := (h x).mp (by rw [hub]; rfl)
    rw [hx] at hs
    cases hs

theorem map_some_of_iso {α β : Type} {m1 : AMap α} {m2 : AMap β}
    (h : ∀ a, (aget? m1 a).isSome ↔ (aget? m2 a).isSome) {x : String} {v : β}
    (hx : aget? m2 x = some v) : ∃ w, aget? m1 x = some w := by
  have hs : (aget? m1 x).isSome := (h x).mpr (by rw [hx]; rfl)
  cases hub : aget? m1 x with
  | none =>
    rw [hub] at hs
    cases hs
  | some w => exact ⟨w, rfl⟩

theorem inv_init2 (s : BC) (g : GMap) (t : Tx) (hInv : Inv s g) (_hs : t.sender ≠ "0") :
    (∀ a, (aget? (init2 s.user_balances t 100 0) a).isSome
        ↔ (aget? (ghostInit g t) a).isSome)
    ∧ (∀ a, (aget? (init2 s.user_balances t 100 0) a).getD 0
        = balSpec (ghostInit g t) (allTxs s) a) := by
  obtain ⟨h1, h2, _⟩ := hInv
  constructor
  · intro a
    unfold ghostInit
    rw [aget?_init2_isSome, aget?_init2_isSome]
    constructor
    · rintro (rfl | rfl | h)
      · left; rfl
      · right; left; rfl
      · right; right; exact (h1 a).mp h
    · rintro (rfl | rfl | h)
      · left; rfl
      · right; left; rfl
      · right; right; exact (h1 a).mpr h
  · intro a
    by_cases ha1 : a = t.sender
    · rw [ha1, init2_senderBal]
      unfold ghostInit balSpec
      rw [aget?_init2_sender g t true false]
      have e := h2 t.sender
      rw [getBalance_def] at e
      unfold balSpec at e
      cases hg : aget? g t.sender with
      | none =>
        have hub : aget? s.user_balances t.sender = none := map_none_of_iso h1 hg
        rw [hub]
        rw [hub, hg] at e
        simp only [Option.getD_none, Option.getD_some] at e ⊢
        rw [if_pos trivial]
        rw [if_neg (by intro hc; cases hc)] at e
        linarith
      | some v =>
        obtain ⟨w, hw⟩ := map_some_of_iso h1 hg
        rw [hw]
        rw [hw, hg] at e
        simp only [Option.getD_some] at e ⊢
        exact e
    · by_cases ha2 : a = t.recipient
      · have hne : t.recipient ≠ t.sender := by
          intro hc
          exact ha1 (ha2.trans hc)
        rw [ha2, init2_recipientBal s.user_balances t hne]
        unfold ghostInit balSpec
        rw [aget?_init2_recipient g t true false hne]
        have e := h2 t.recipient
        rw [getBalance_def] at e
        unfold balSpec at e
        cases hg : aget? g t.recipient with
        | none =>
          have hub : aget? s.user_balances t.recipient = none := map_none_of_iso h1 hg
          rw [hub]
          rw [hub, hg] at e
          simp only [Option.getD_none, Option.getD_some] at e ⊢
          rw [if_neg (by intro hc; cases hc)]
          rw [if_neg (by intro hc; cases hc)] at e
          linarith
        | some v =>
          obtain ⟨w, hw⟩ := map_some_of_iso h1 hg
          rw [hw]
          rw [hw, hg] at e
          simp only [Option.getD_some] at e ⊢
          exact e
      · rw [aget?_init2_other s.user_balances t 100 0 a ha1 ha2]
        unfold ghostInit balSpec
        rw [aget?_init2_other g t true false a ha1 ha2]
        have e := h2 a
        rw [getBalance_def] at e
        unfold balSpec at e
        exact e


theorem inv_step_submit (hm : HashModel) (s : BC) (g : GMap) (t : Tx)
    (hs : t.sender ≠ "0") (hInv : Inv s g) :
    Inv (addTransaction hm s t).2 (gstep hm s g (Op.submit t)) := by
  have hg0 : gstep hm s g (Op.submit t)
      = (if isDuplicate hm s t = true ∨ t.sender = "0" then g else ghostInit g t) := rfl
  by_cases hd : isDuplicate hm s t = true
  · have hg : gstep hm s g (Op.submit t) = g := by
      rw [hg0, if_pos (Or.inl hd)]
    rw [hg, addTransaction_dup hm s t hd]
    exact inv_rejectTx s g t "Duplicate transaction" hInv
  · have hd' : isDuplicate hm s t = false := by
      cases hdd : isDuplicate hm s t
      · rfl
      · exact absurd hdd hd
    have hg : gstep hm s g (Op.submit t) = ghostInit g t := by
      rw [hg0, if_neg (by rintro (hc | hc) <;> [exact hd hc; exact hs hc])]
    rw [hg]
    obtain ⟨hiso, hbal⟩ := inv_init2 s g t hInv hs
    by_cases hlt : (aget? (init2 s.user_balances t 100 0) t.sender).getD 0 < t.amount
    · have hval : (isTransactionValid s t).1 = false := by
        rw [itv_reject s t hs hlt]
    -- the rejected path: two rejection entries appended, balances set to the
    -- initialized table
      rw [addTransaction_rejectFunds hm s t hd' hval, itv_reject s t hs hlt]
      show Inv (rejectTx (rejectTx { s with user_balances := init2 s.user_balances t 100 0 } t ("Insufficient funds: " ++ floatRepr ((aget? (init2 s.user_balances t 100 0) t.sender).getD 0) ++ " < " ++ floatRepr t.amount)) t "Insufficient funds") (ghostInit g t)
      apply inv_rejectTx
      apply inv_rejectTx
      refine ⟨?_, ?_, ?_⟩
      · intro a
        exact hiso a
      · intro a
        rw [getBalance_def]
        exact hbal a
      · exact hInv.2.2
    · have hval : (isTransactionValid s t).1 = true := by
        rw [itv_accept s t hs hlt]
      rw [addTransaction_accept hm s t hd' hval, itv_accept s t hs hlt]
      show Inv { s with user_balances := debitCredit (init2 s.user_balances t 100 0) t, pending_transactions := s.pending_transactions ++ [t] } (ghostInit g t)
      have hsend : (aget? (init2 s.user_balances t 100 0) t.sender).isSome := by
        rw [aget?_init2_sender]
        rfl
      have hrec : (aget? (init2 s.user_balances t 100 0) t.recipient).isSome := by
        by_cases hsr : t.recipient = t.sender
        · rw [hsr]
          exact hsend
        · rw [aget?_init2_recipient s.user_balances t 100 0 hsr]
          rfl
      have hall : allTxs { s with user_balances := debitCredit (init2 s.user_balances t 100 0) t, pending_transactions := s.pending_transactions ++ [t] } = allTxs s ++ [t] := by
        unfold allTxs
        simp [List.append_assoc]
      refine ⟨?_, ?_, ?_⟩
      · intro a
        show (aget? (debitCredit (init2 s.user_balances t 100 0) t) a).isSome ↔ _
        rw [debitCredit_isSome]
        constructor
        · rintro (rfl | rfl | h)
          · exact (hiso t.sender).mp hsend
          · exact (hiso t.recipient).mp hrec
          · exact (hiso a).mp h
        · intro h
          exact Or.inr (Or.inr ((hiso a).mpr h))
      · intro a
        rw [getBalance_def, hall]
        show (aget? (debitCredit (init2 s.user_balances t 100 0) t) a).getD 0 = _
        unfold balSpec
        rw [creditSum_append, debitSum_append, creditSum_single, debitSum_single]
        by_cases hsr : t.sender = t.recipient
        · by_cases ha : a = t.sender
          · rw [ha]
            rw [debitCredit_self (init2 s.user_balances t 100 0) t hsr]
            rw [Option.getD_some]
            have e := hbal t.sender
            unfold balSpec at e
            rw [if_pos (show t.recipient = t.sender from hsr.symm),
              if_pos (show t.sender = t.sender ∧ t.sender ≠ "0" from ⟨rfl, hs⟩)]
            linarith
          · have ha2 : a ≠ t.recipient := fun he => ha (he.trans hsr.symm)
            rw [debitCredit_other (init2 s.user_balances t 100 0) t a ha ha2]
            have e := hbal a
            unfold balSpec at e
            rw [if_neg (show ¬ t.recipient = a from fun he => ha2 he.symm),
              if_neg (show ¬ (t.sender = a ∧ t.sender ≠ "0") from fun hc => ha hc.1.symm)]
            linarith
        · by_cases ha : a = t.sender
          · rw [ha, debitCredit_sender (init2 s.user_balances t 100 0) t hsr]
            rw [Option.getD_some]
            have e := hbal t.sender
            unfold balSpec at e
            rw [if_neg (show ¬ t.recipient = t.sender from fun he => hsr he.symm),
              if_pos (show t.sender = t.sender ∧ t.sender ≠ "0" from ⟨rfl, hs⟩)]
            linarith
          · by_cases ha2 : a = t.recipient
            · rw [ha2, debitCredit_recipient (init2 s.user_balances t 100 0) t hsr]
              rw [Option.getD_some]
              have e := hbal t.recipient
              unfold balSpec at e
              rw [if_pos (show t.recipient = t.recipient from rfl),
                if_neg (show ¬ (t.sender = t.recipient ∧ t.sender ≠ "0") from fun hc => hsr hc.1)]
              linarith
            · rw [debitCredit_other (init2 s.user_balances t 100 0) t a ha ha2]
              have e := hbal a
              unfold balSpec at e
              rw [if_neg (show ¬ t.recipient = a from fun he => ha2 he.symm),
              if_neg (show ¬ (t.sender = a ∧ t.sender ≠ "0") from fun hc => ha hc.1.symm)]
              linarith
      · intro x hx
        rcases List.mem_append.mp hx with h | h
        · exact hInv.2.2 x h
        · have hxt : x = t := List.mem_singleton.mp h
          rw [hxt]
          exact hs


theorem inv_step_mine (hm : HashModel) (fuel : ℕ) (addr : String) (rts : ℤ) (rsig : String)
    (bts : ℤ) (s : BC) (g : GMap) (b : Block) (s' : BC) (hInv : Inv s g)
    (hmine : minePending hm fuel addr rts rsig bts s = some (b, s')) :
    Inv s' (ghostMine g addr) := by
  obtain ⟨h1, h2, h3⟩ := hInv
  have h1' : ∀ a, (aget? g a).isSome ↔ (aget? s.user_balances a).isSome :=
    fun a => (h1 a).symm
  cases htip : latestBlock? s with
  | none =>
    unfold minePending at hmine
    rw [htip] at hmine
    cases hmine
  | some tip =>
    have hunf : minePending hm fuel addr rts rsig bts s
        = (match mineBlock hm fuel (mkBlock hm s.chain.length
              (s.pending_transactions ++ [⟨"0", addr, s.mining_reward, rts, rsig⟩])
              bts tip.hash 0 s.difficulty) with
          | none => none
          | some bk => some (bk, { updateBalances { s with chain := s.chain ++ [bk] } bk with pending_transactions := [] })) := by
      unfold minePending
      rw [htip]
    rw [hunf] at hmine
    cases hmb : mineBlock hm fuel (mkBlock hm s.chain.length
        (s.pending_transactions ++ [⟨"0", addr, s.mining_reward, rts, rsig⟩])
        bts tip.hash 0 s.difficulty) with
    | none =>
      rw [hmb] at hmine
      cases hmine
    | some bk =>
      rw [hmb] at hmine
      injection hmine with hmine
      have hb : b = bk := (congrArg Prod.fst hmine).symm
      have hs2 : { updateBalances { s with chain := s.chain ++ [bk] } bk with pending_transactions := [] } = s' := congrArg Prod.snd hmine
      subst hb
      have htxs : b.transactions
          = s.pending_transactions ++ [⟨"0", addr, s.mining_reward, rts, rsig⟩] :=
        (mineBlock_spec hm fuel _ b hmb).1
      have hupd : updateBalances { s with chain := s.chain ++ [b] } b
          = rewardStep { s with chain := s.chain ++ [b] }
              ⟨"0", addr, s.mining_reward, rts, rsig⟩ := by
        unfold updateBalances
        rw [htxs, List.foldl_append,
          foldl_rewardStep_nonsystem s.pending_transactions _ h3]
        rfl
      rw [← hs2, hupd]
      have hallT : ∀ ub' : Balances,
          allTxs { s with chain := s.chain ++ [b], user_balances := ub', pending_transactions := ([] : List Tx) }
            = allTxs s ++ [⟨"0", addr, s.mining_reward, rts, rsig⟩] := by
        intro ub'
        unfold allTxs
        rw [List.map_append]
        simp [htxs, List.append_assoc]
      cases hv : aget? s.user_balances addr with
      | none =>
        have hstep : rewardStep { s with chain := s.chain ++ [b] }
              ⟨"0", addr, s.mining_reward, rts, rsig⟩
            = { s with chain := s.chain ++ [b], user_balances := aset s.user_balances addr s.mining_reward } := by
          unfold rewardStep
          rw [if_pos rfl, hv]
        rw [hstep]
        have hgaddr : aget? g addr = none := map_none_of_iso h1' hv
        have hgm : ghostMine g addr = aset g addr false := by
          unfold ghostMine
          rw [if_pos (by rw [hgaddr]; rfl)]
        rw [hgm]
        refine ⟨?_, ?_, ?_⟩
        · intro a
          show (aget? (aset s.user_balances addr s.mining_reward) a).isSome ↔ _
          rw [aget?_aset_isSome, aget?_aset_isSome]
          constructor
          · rintro (rfl | h)
            · left; rfl
            · right; exact (h1 a).mp h
          · rintro (rfl | h)
            · left; rfl
            · right; exact (h1 a).mpr h
        · intro a
          rw [getBalance_def]
          show (aget? (aset s.user_balances addr s.mining_reward) a).getD 0 = _
          rw [hallT]
          unfold balSpec
          rw [creditSum_append, debitSum_append, creditSum_single, debitSum_single]
          have e := h2 a
          rw [getBalance_def] at e
          unfold balSpec at e
          by_cases ha : a = addr
          · subst ha
            rw [aget?_aset_self, Option.getD_some, aget?_aset_self]
            rw [hv] at e
            rw [hgaddr] at e
            rw [if_neg (show ¬ (some false = some true) from by simp)]
            rw [if_neg (show ¬ ((none : Option Bool) = some true) from by simp)] at e
            rw [if_pos (show (⟨"0", a, s.mining_reward, rts, rsig⟩ : Tx).recipient = a from rfl)]
            rw [if_neg (show ¬ ((⟨"0", a, s.mining_reward, rts, rsig⟩ : Tx).sender = a ∧ (⟨"0", a, s.mining_reward, rts, rsig⟩ : Tx).sender ≠ "0") from fun hc => hc.2 rfl)]
            simp only [Option.getD_none] at e
            linarith
          · rw [aget?_aset_ne _ _ (fun he => ha he.symm),
              aget?_aset_ne _ _ (fun he => ha he.symm)]
            rw [if_neg (show ¬ ((⟨"0", addr, s.mining_reward, rts, rsig⟩ : Tx).recipient = a) from fun he => ha he.symm)]
            rw [if_neg (show ¬ ((⟨"0", addr, s.mining_reward, rts, rsig⟩ : Tx).sender = a ∧ (⟨"0", addr, s.mining_reward, rts, rsig⟩ : Tx).sender ≠ "0") from fun hc => hc.2 rfl)]
            linarith
        · intro x hx
          simp at hx
      | some v =>
        have hstep : rewardStep { s with chain := s.chain ++ [b] }
              ⟨"0", addr, s.mining_reward, rts, rsig⟩
            = { s with chain := s.chain ++ [b], user_balances := aset s.user_balances addr (v + s.mining_reward) } := by
          unfold rewardStep
          rw [if_pos rfl, hv]
        rw [hstep]
        obtain ⟨w, hw⟩ := map_some_of_iso h1' hv
        have hgm : ghostMine g addr = g := by
          unfold ghostMine
          rw [if_neg (by rw [hw]; simp)]
        rw [hgm]
        refine ⟨?_, ?_, ?_⟩
        · intro a
          show (aget? (aset s.user_balances addr (v + s.mining_reward)) a).isSome ↔ _
          rw [aget?_aset_isSome]
          constructor
          · rintro (rfl | h)
            · rw [hw]; rfl
            · exact (h1 a).mp h
          · intro h
            right
            exact (h1 a).mpr h
        · intro a
          rw [getBalance_def]
          show (aget? (aset s.user_balances addr (v + s.mining_reward)) a).getD 0 = _
          rw [hallT]
          unfold balSpec
          rw [creditSum_append, debitSum_append, creditSum_single, debitSum_single]
          have e := h2 a
          rw [getBalance_def] at e
          unfold balSpec at e
          by_cases ha : a = addr
          · subst ha
            rw [aget?_aset_self, Option.getD_some]
            rw [hv, Option.getD_some] at e
            rw [if_pos (show (⟨"0", a, s.mining_reward, rts, rsig⟩ : Tx).recipient = a from rfl)]
            rw [if_neg (show ¬ ((⟨"0", a, s.mining_reward, rts, rsig⟩ : Tx).sender = a ∧ (⟨"0", a, s.mining_reward, rts, rsig⟩ : Tx).sender ≠ "0") from fun hc => hc.2 rfl)]
            linarith
          · rw [aget?_aset_ne _ _ (fun he => ha he.symm)]
            rw [if_neg (show ¬ ((⟨"0", addr, s.mining_reward, rts, rsig⟩ : Tx).recipient = a) from fun he => ha he.symm)]
            rw [if_neg (show ¬ ((⟨"0", addr, s.mining_reward, rts, rsig⟩ : Tx).sender = a ∧ (⟨"0", addr, s.mining_reward, rts, rsig⟩ : Tx).sender ≠ "0") from fun hc => hc.2 rfl)]
            linarith
        · intro x hx
          simp at hx


theorem inv_fresh (hm : HashModel) (d : ℕ) (ts : ℤ) : Inv (freshBC hm d ts) [] := by
  refine ⟨?_, ?_, ?_⟩
  · intro a
    show (aget? ([] : Balances) a).isSome ↔ (aget? ([] : GMap) a).isSome
    rfl
  · intro a
    rw [getBalance_def]
    show (aget? ([] : Balances) a).getD 0 = balSpec [] (allTxs (freshBC hm d ts)) a
    have hT : allTxs (freshBC hm d ts) = [] := by
      unfold allTxs freshBC
      rfl
    rw [hT]
    unfold balSpec creditSum debitSum
    simp [aget?]
  · intro x hx
    simp [freshBC] at hx

theorem inv_runG (hm : HashModel) (fuel : ℕ) :
    ∀ (ops : List Op) (s : BC) (g : GMap), Inv s g → nonSystemOps ops = true →
      ∀ (p : BC × GMap), runG hm fuel (s, g) ops = some p →
        Inv p.1 p.2 ∧ runOps hm fuel s ops = some p.1 := by
  intro ops
  induction ops with
  | nil =>
    intro s g hInv _ p hp
    have hp' : (s, g) = p := by
      injection hp
    rw [← hp']
    exact ⟨hInv, rfl⟩
  | cons op rest ih =>
    intro s g hInv hns p hp
    have hns1 : nonSystemOps rest = true := by
      simp only [nonSystemOps, List.all_cons, Bool.and_eq_true] at hns
      exact hns.2
    cases op with
    | submit t =>
      have hnst : t.sender ≠ "0" := by
        simp only [nonSystemOps, List.all_cons, Bool.and_eq_true] at hns
        exact of_decide_eq_true hns.1
      have hp' : runG hm fuel ((addTransaction hm s t).2, gstep hm s g (Op.submit t)) rest
          = some p := hp
      obtain ⟨hi, hr⟩ := ih _ _ (inv_step_submit hm s g t hnst hInv) hns1 p hp'
      refine ⟨hi, ?_⟩
      show runOps hm fuel (addTransaction hm s t).2 rest = some p.1
      exact hr
    | mine addr rts rsig bts =>
      cases hmp : minePending hm fuel addr rts rsig bts s with
      | none =>
        have hro : runOp hm fuel s (Op.mine addr rts rsig bts) = none := by
          show (minePending hm fuel addr rts rsig bts s).map Prod.snd = none
          rw [hmp]
          rfl
        have hp' : (match runOp hm fuel s (Op.mine addr rts rsig bts) with
            | none => (none : Option (BC × GMap))
            | some s1 => runG hm fuel (s1, gstep hm s g (Op.mine addr rts rsig bts)) rest)
            = some p := hp
        rw [hro] at hp'
        cases hp'
      | some pr =>
        obtain ⟨b, s1⟩ := pr
        have hro : runOp hm fuel s (Op.mine addr rts rsig bts) = some s1 := by
          show (minePending hm fuel addr rts rsig bts s).map Prod.snd = some s1
          rw [hmp]
          rfl
        have hp0 : (match runOp hm fuel s (Op.mine addr rts rsig bts) with
            | none => (none : Option (BC × GMap))
            | some s2 => runG hm fuel (s2, gstep hm s g (Op.mine addr rts rsig bts)) rest)
            = some p := hp
        rw [hro] at hp0
        have hgs : gstep hm s g (Op.mine addr rts rsig bts) = ghostMine g addr := rfl
        rw [hgs] at hp0
        obtain ⟨hi, hr⟩ := ih _ _
          (inv_step_mine hm fuel addr rts rsig bts s g b s1 hInv hmp) hns1 p hp0
        refine ⟨hi, ?_⟩
        show (match runOp hm fuel s (Op.mine addr rts rsig bts) with
          | none => (none : Option BC)
          | some s2 => runOps hm fuel s2 rest) = some p.1
        rw [hro]
        exact hr

/-- C3 (counterexample): after the (admitted) system submission
`"0" → "m", 5` on a fresh ledger, the stored balance of `"m"` is 0, but
the claimed formula — credits minus debits over chain + pending plus 100
on first appearance as sender — evaluates to 5. -/
theorem balance_invariant_counterexample :
    (addTransaction testHM bc0 txSys5).1 = true
    ∧ getBalance (addTransaction testHM bc0 txSys5).2 "m" = 0
    ∧ specClaimedBalance (addTransaction testHM bc0 txSys5).2 "m" = 5 := by
  decide

/-- C3 (amended): after any sequence of non-system submissions and mining
operations on a fresh ledger, every account's stored balance equals the
credits minus the debits over chain + pending transactions (reward credits
included, system-sender debits excluded), plus 100 exactly when the
account's first entry into the balance table was as the sender of a
validated (non-duplicate, non-system) submission — including submissions
later rejected for insufficient funds.  The ghost component of `runG`
records that entry mode; the first conjunct ties the run to the plain
operational semantics `runOps`. -/
theorem ledger_balance_invariant (hm : HashModel) (fuel : ℕ) (d : ℕ) (ts : ℤ)
    (ops : List Op) (p : BC × GMap)
    (hops : nonSystemOps ops = true)
    (hrun : runG hm fuel (freshBC hm d ts, []) ops = some p) :
    runOps hm fuel (freshBC hm d ts) ops = some p.1
    ∧ ∀ a, getBalance p.1 a
        = (if aget? p.2 a = some true then 100 else 0)
          + creditSum (allTxs p.1) a - debitSum (allTxs p.1) a := by
  obtain ⟨hi, hr⟩ := inv_runG hm fuel ops _ _ (inv_fresh hm d ts) hops p hrun
  exact ⟨hr, fun a => hi.2.1 a⟩

theorem ledger_balance_invariant_witness :
    runOps testHM 0 (freshBC testHM 0 0) c3ops = some c3pair.1
    ∧ getBalance c3pair.1 "a1"
        = (if aget? c3pair.2 "a1" = some true then 100 else 0)
          + creditSum (allTxs c3pair.1) "a1" - debitSum (allTxs c3pair.1) "a1" :=
  ⟨(ledger_balance_invariant testHM 0 0 0 c3ops c3pair (by decide) (by decide)).1,
   (ledger_balance_invariant testHM 0 0 0 c3ops c3pair (by decide) (by decide)).2 "a1"⟩

end Workshop2
